import Mathlib

/-!
Shallow embedding of the ESP trilateration coordination service
(`server/server.go`) and proofs about it.

Modelling conventions:
- Go `float64` values are modelled as real numbers (`ℝ`); `math.Sqrt` is
  `Real.sqrt`, `math.Pow` is real exponentiation (`Real.rpow`).
- Go maps (`map[string]*Node`, `map[string]CalibrationParams`) are modelled as
  association lists with overwrite-on-insert (`setKey`) and lookup (`getKey`).
- `time.Time` is modelled as an abstract integer timestamp; `*websocket.Conn`
  handles are modelled as `Option ℕ` (a connection identity, `none` when the
  node is disconnected).
- Each HTTP / websocket handler is modelled as a pure state transformer on the
  global server state (the Go globals `nodes`, `calibration`, `phonePosition`).
  Logging and outbound writes do not affect that state and are dropped.
-/

namespace Esp

/-- Position in 3D space (struct `Position` of the source). -/
structure Position where
  X : ℝ
  Y : ℝ
  Z : ℝ

/-- Calibration parameters (struct `CalibrationParams` of the source). -/
structure CalibrationParams where
  RSSIAt1m : ℝ
  PathLoss : ℝ

/-- Node record (struct `Node` of the source).  `Conn` is the websocket
connection handle, `none` when disconnected. -/
structure Node where
  ID : String
  Conn : Option ℕ
  Pos : Position
  Distance : ℝ
  RSSI : ℤ
  LastSeen : ℤ

/-- Association-list lookup, modelling Go map read `m[k]` (with its `ok` flag
as the `Option`). -/
def getKey {β : Type _} : List (String × β) → String → Option β
  | [], _ => none
  | (k, v) :: t, key => if k = key then some v else getKey t key

/-- Association-list overwrite, modelling Go map write `m[k] = v`. -/
def setKey {β : Type _} : List (String × β) → String → β → List (String × β)
  | [], key, v => [(key, v)]
  | (k, w) :: t, key, v => if k = key then (k, v) :: t else (k, w) :: setKey t key v

/-- Global server state: the Go globals `nodes`, `calibration` and
`phonePosition`. -/
structure ServerState where
  nodes : List (String × Node)
  calibration : List (String × CalibrationParams)
  phonePosition : Position

/-- The initial global state: empty node registry, the calibration map holding
only the `"default"` entry `{RSSIAt1m: -60.0, PathLoss: 2.0}`, and
`phonePosition = {0, 0, 0}`. -/
noncomputable def initialState : ServerState :=
  { nodes := []
    calibration := [("default", ⟨-60, 2⟩)]
    phonePosition := ⟨0, 0, 0⟩ }

/-! ### Signal model (`calculateDistanceFromRSSI`) -/

/-- The calibration pair used for a node: the node-specific entry when present,
otherwise the `"default"` entry (and the Go zero value if even that is absent),
mirroring the `params, ok := calibration[nodeID]; if !ok ...` sequence. -/
def paramsFor (calib : List (String × CalibrationParams)) (nodeID : String) :
    CalibrationParams :=
  match getKey calib nodeID with
  | some params => params
  | none => (getKey calib "default").getD ⟨0, 0⟩

/-- Source function `calculateDistanceFromRSSI`: distance
`10 ^ ((RSSIAt1m - rssi) / (10 * PathLoss))`, with the calibration map passed
explicitly in place of the Go global. -/
noncomputable def calculateDistanceFromRSSI
    (calib : List (String × CalibrationParams)) (rssi : ℤ) (nodeID : String) : ℝ :=
  let params := paramsFor calib nodeID
  (10 : ℝ) ^ ((params.RSSIAt1m - (rssi : ℝ)) / (10 * params.PathLoss))

/-! ### Position solver (`trilateratePosition`) -/

def maxIterations : ℕ := 100

noncomputable def learningRate : ℝ := 0.1

noncomputable def convergenceThreshold : ℝ := 0.001

open Classical in
/-- One gradient accumulation pass of the source's iteration body: starting
from `{0,0,0}`, fold over the nodes adding `2 * error * d_ / calculatedDistance`
per coordinate, skipped when `calculatedDistance > 0` fails.  (The source also
accumulates `totalError`, which only feeds a log line and is dropped here.) -/
noncomputable def gradientAt (nodes : List Node) (position : Position) : Position :=
  nodes.foldl
    (fun gradient node =>
      let dx := position.X - node.Pos.X
      let dy := position.Y - node.Pos.Y
      let dz := position.Z - node.Pos.Z
      let calculatedDistance := Real.sqrt (dx * dx + dy * dy + dz * dz)
      let error := calculatedDistance - node.Distance
      if calculatedDistance > 0 then
        ⟨gradient.X + 2 * error * dx / calculatedDistance,
         gradient.Y + 2 * error * dy / calculatedDistance,
         gradient.Z + 2 * error * dz / calculatedDistance⟩
      else gradient)
    ⟨0, 0, 0⟩

open Classical in
/-- The source's `for iteration := 0; iteration < maxIterations; ...` loop,
with the remaining iteration budget as fuel.  Each pass computes the gradient,
updates the position by `-= learningRate * gradient`, and breaks once the
gradient magnitude drops below `convergenceThreshold`.  The second component
counts the executed iterations. -/
noncomputable def trilatLoop (nodes : List Node) : ℕ → Position → Position × ℕ
  | 0, position => (position, 0)
  | fuel + 1, position =>
    let gradient := gradientAt nodes position
    let updated : Position :=
      ⟨position.X - learningRate * gradient.X,
       position.Y - learningRate * gradient.Y,
       position.Z - learningRate * gradient.Z⟩
    let gradientMagnitude :=
      Real.sqrt (gradient.X * gradient.X + gradient.Y * gradient.Y +
        gradient.Z * gradient.Z)
    if gradientMagnitude < convergenceThreshold then (updated, 1)
    else
      let rest := trilatLoop nodes fuel updated
      (rest.1, rest.2 + 1)

/-- Source function `trilateratePosition`: gradient descent from the initial
guess for at most `maxIterations` iterations. -/
noncomputable def trilateratePosition (nodes : List Node) (initialGuess : Position) :
    Position :=
  (trilatLoop nodes maxIterations initialGuess).1

open Classical in
/-- The `validNodes` selection of `updatePhonePosition`: the nodes whose
`Distance > 0`. -/
noncomputable def validNodesOf : List Node → List Node
  | [] => []
  | node :: t => if 0 < node.Distance then node :: validNodesOf t else validNodesOf t

open Classical in
/-- Source function `updatePhonePosition`: collect the nodes with a positive
distance; with fewer than 3 of them return (the state unchanged), otherwise
solve from the origin initial guess and store the result in `phonePosition`. -/
noncomputable def updatePhonePosition (st : ServerState) : ServerState :=
  let validNodes := validNodesOf (st.nodes.map Prod.snd)
  if validNodes.length < 3 then st
  else { st with phonePosition := trilateratePosition validNodes ⟨0, 0, 0⟩ }

/-! ### Session protocol handler (`wsHandler` / `handleMessages`) -/

/-- The decode outcome of one inbound websocket frame, as dispatched by the
`switch msg.Type` in `handleMessages`: a structured message of type
`"distance"`, `"calibration"` or `"position"` (whose payload re-parse into
`Position` may fail), some other JSON object, or an undecodable plain-text
frame. -/
inductive Inbound where
  | distanceMsg (rssi : ℤ) (distance : ℝ)
  | calibrationMsg
  | positionMsg (pos : Option Position)
  | otherJson
  | text (s : String)

/-- The `node.LastSeen = time.Now()` update performed for every received
frame. -/
noncomputable def updateLastSeen (st : ServerState) (nodeID : String) (now : ℤ) :
    ServerState :=
  match getKey st.nodes nodeID with
  | some node => { st with nodes := setKey st.nodes nodeID { node with LastSeen := now } }
  | none => st

/-- The `"distance"` branch of `handleMessages`: store RSSI and distance on the
node (when present). -/
noncomputable def recordDistance (st : ServerState) (nodeID : String) (rssi : ℤ)
    (dist : ℝ) : ServerState :=
  match getKey st.nodes nodeID with
  | some node =>
    { st with nodes := setKey st.nodes nodeID { node with RSSI := rssi, Distance := dist } }
  | none => st

/-- The `"position"` branch of `handleMessages`: store the reported position on
the node (when present). -/
noncomputable def recordPosition (st : ServerState) (nodeID : String) (pos : Position) :
    ServerState :=
  match getKey st.nodes nodeID with
  | some node => { st with nodes := setKey st.nodes nodeID { node with Pos := pos } }
  | none => st

/-- One pass of the `handleMessages` read loop for a successfully read frame:
refresh `LastSeen`, then dispatch on the decoded message.  The boolean is
`true` when the loop continues with the connection open; no message content
makes the loop break (breaks happen only on transport read/write errors, which
are outside this state model). -/
noncomputable def handleMessage (st : ServerState) (nodeID : String) (msg : Inbound)
    (now : ℤ) : ServerState × Bool :=
  let st1 := updateLastSeen st nodeID now
  match msg with
  | .distanceMsg rssi dist => (updatePhonePosition (recordDistance st1 nodeID rssi dist), true)
  | .calibrationMsg => (st1, true)
  | .positionMsg (some pos) => (recordPosition st1 nodeID pos, true)
  | .positionMsg none => (st1, true)
  | .otherJson => (st1, true)
  | .text _ => (st1, true)

/-- Source `wsHandler` after a successful upgrade: build a fresh node record
(position origin, distance 0, the new connection handle) and store it under the
IP-derived id, overwriting any record already there. -/
noncomputable def wsConnect (st : ServerState) (tempID : String) (connId : ℕ)
    (now : ℤ) : ServerState :=
  { st with
      nodes := setKey st.nodes tempID
        { ID := tempID, Conn := some connId, Pos := ⟨0, 0, 0⟩, Distance := 0,
          RSSI := 0, LastSeen := now } }

/-- The deferred disconnect handling of `handleMessages`: if the node still
exists and this connection is still its active one, null the handle; the record
itself is kept. -/
noncomputable def markDisconnected (st : ServerState) (nodeID : String) (connId : ℕ) :
    ServerState :=
  match getKey st.nodes nodeID with
  | some node =>
    if node.Conn = some connId then
      { st with nodes := setKey st.nodes nodeID { node with Conn := none } }
    else st
  | none => st

/-! ### HTTP handlers -/

/-- HTTP statuses the modelled handlers can answer with. -/
inductive HttpStatus where
  | ok200
  | notFound404
deriving DecidableEq

/-- Source `setNodePositionHandler` (after method and JSON checks): 404 and no
mutation for an unknown id, otherwise store the position and answer
`200 {"status":"ok"}`. -/
noncomputable def setNodePositionHandler (st : ServerState) (nodeID : String)
    (pos : Position) : ServerState × HttpStatus :=
  match getKey st.nodes nodeID with
  | none => (st, .notFound404)
  | some node =>
    ({ st with nodes := setKey st.nodes nodeID { node with Pos := pos } }, .ok200)

/-- Source `calibrationHandler` (after method and JSON checks): store the pair
under the given id — with no registry existence check — and answer
`200 {"status":"ok"}`. -/
noncomputable def calibrationHandler (st : ServerState) (nodeID : String)
    (rssiAt1m pathLoss : ℝ) : ServerState × HttpStatus :=
  ({ st with calibration := setKey st.calibration nodeID ⟨rssiAt1m, pathLoss⟩ }, .ok200)

/-- Visualization payload (struct `VisualizationData`), maps modelled as
association lists. -/
structure VisualizationData where
  Nodes : List (String × Position)
  Clients : List (String × Position)

/-- Source `visualizationHandler`: every node's position keyed by id, and the
clients map built with the single `"PHONE"` entry. -/
noncomputable def visualizationHandler (st : ServerState) : VisualizationData :=
  { Nodes := st.nodes.map fun kv => (kv.1, kv.2.Pos)
    Clients := [("PHONE", st.phonePosition)] }

/-! ### Event-level view of the service -/

/-- The state-mutating entry points of the service, as one event type: a
websocket connect, a disconnect, one inbound frame on an open connection, and
the two administrative POSTs. -/
inductive Event where
  | connect (tempID : String) (connId : ℕ) (now : ℤ)
  | disconnect (nodeID : String) (connId : ℕ)
  | message (nodeID : String) (msg : Inbound) (now : ℤ)
  | setNodePosition (nodeID : String) (pos : Position)
  | calibrate (nodeID : String) (rssiAt1m pathLoss : ℝ)

/-- Effect of one event on the global state. -/
noncomputable def step (st : ServerState) : Event → ServerState
  | .connect tempID connId now => wsConnect st tempID connId now
  | .disconnect nodeID connId => markDisconnected st nodeID connId
  | .message nodeID msg now => (handleMessage st nodeID msg now).1
  | .setNodePosition nodeID pos => (setNodePositionHandler st nodeID pos).1
  | .calibrate nodeID r p => (calibrationHandler st nodeID r p).1

/-- Run a sequence of events from the initial state. -/
noncomputable def run (events : List Event) : ServerState :=
  events.foldl step initialState

/-- An event performs a qualifying solve when it is a distance report that,
once recorded, leaves at least 3 nodes with a positive distance (so that
`updatePhonePosition` reaches the solver). -/
noncomputable def solveInvoked (st : ServerState) : Event → Prop
  | .message nodeID (.distanceMsg rssi dist) now =>
    3 ≤ (validNodesOf
      (((recordDistance (updateLastSeen st nodeID now) nodeID rssi dist)).nodes.map
        Prod.snd)).length
  | _ => False

/-- No event of the list performs a qualifying solve, starting from `st`. -/
noncomputable def noSolveDuring : ServerState → List Event → Prop
  | _, [] => True
  | st, e :: es => ¬ solveInvoked st e ∧ noSolveDuring (step st e) es

/-- With fewer than 3 valid nodes, `updatePhonePosition` is the identity. -/
theorem updatePhonePosition_eq_self_of_few (st : ServerState)
    (h : (validNodesOf (st.nodes.map Prod.snd)).length < 3) :
    updatePhonePosition st = st := by
  simp only [updatePhonePosition]
  rw [if_pos h]

/-- The `LastSeen` refresh never touches the phone position. -/
theorem updateLastSeen_phonePosition (st : ServerState) (nodeID : String) (now : ℤ) :
    (updateLastSeen st nodeID now).phonePosition = st.phonePosition := by
  unfold updateLastSeen
  cases getKey st.nodes nodeID <;> rfl

/-- Recording a distance report never touches the phone position directly. -/
theorem recordDistance_phonePosition (st : ServerState) (nodeID : String) (rssi : ℤ)
    (dist : ℝ) : (recordDistance st nodeID rssi dist).phonePosition = st.phonePosition := by
  unfold recordDistance
  cases getKey st.nodes nodeID <;> rfl

/-- Recording a position report never touches the phone position. -/
theorem recordPosition_phonePosition (st : ServerState) (nodeID : String) (pos : Position) :
    (recordPosition st nodeID pos).phonePosition = st.phonePosition := by
  unfold recordPosition
  cases getKey st.nodes nodeID <;> rfl

/-- Marking a node disconnected never touches the phone position. -/
theorem markDisconnected_phonePosition (st : ServerState) (nodeID : String) (connId : ℕ) :
    (markDisconnected st nodeID connId).phonePosition = st.phonePosition := by
  unfold markDisconnected
  cases getKey st.nodes nodeID
  · rfl
  · dsimp only
    split <;> rfl

/-- Any event that does not perform a qualifying solve leaves the phone
position unchanged. -/
theorem step_phonePosition_of_not_solve (st : ServerState) (e : Event)
    (h : ¬ solveInvoked st e) : (step st e).phonePosition = st.phonePosition := by
  cases e with
  | connect tempID connId now => rfl
  | disconnect nodeID connId => exact markDisconnected_phonePosition st nodeID connId
  | setNodePosition nodeID pos =>
    simp only [step, setNodePositionHandler]
    cases getKey st.nodes nodeID <;> rfl
  | calibrate nodeID r p => rfl
  | message nodeID msg now =>
    cases msg with
    | distanceMsg rssi dist =>
      have hlt : (validNodesOf
          (((recordDistance (updateLastSeen st nodeID now) nodeID rssi dist)).nodes.map
            Prod.snd)).length < 3 := by
        simpa [solveInvoked, not_le] using h
      simp only [step, handleMessage]
      rw [updatePhonePosition_eq_self_of_few _ hlt, recordDistance_phonePosition,
        updateLastSeen_phonePosition]
    | calibrationMsg => exact updateLastSeen_phonePosition st nodeID now
    | positionMsg pos =>
      cases pos with
      | none => exact updateLastSeen_phonePosition st nodeID now
      | some p =>
        simp only [step, handleMessage]
        rw [recordPosition_phonePosition, updateLastSeen_phonePosition]
    | otherJson => exact updateLastSeen_phonePosition st nodeID now
    | text s => exact updateLastSeen_phonePosition st nodeID now

/-- Over a whole solve-free event sequence the phone position is preserved. -/
theorem foldl_phonePosition_of_noSolve :
    ∀ (events : List Event) (st : ServerState), noSolveDuring st events →
      (events.foldl step st).phonePosition = st.phonePosition := by
  intro events
  induction events with
  | nil => intro st _; rfl
  | cons e es ih =>
    rintro st ⟨h1, h2⟩
    rw [List.foldl_cons, ih (step st e) h2, step_phonePosition_of_not_solve st e h1]

/-! ### Claim C2: fewer than three eligible anchors leave the target untouched -/

/-- C2: whenever fewer than three anchors have a positive measured distance,
`updatePhonePosition` leaves the state — in particular the previously computed
phone position — unchanged, and the solver is not reached. -/
theorem claim2_insufficient_anchors_keep_position (st : ServerState)
    (h : (validNodesOf (st.nodes.map Prod.snd)).length < 3) :
    updatePhonePosition st = st :=
  updatePhonePosition_eq_self_of_few st h

/-- A concrete state with three registered nodes of which only two have a
positive distance. -/
noncomputable def twoValidState : ServerState :=
  { nodes := [("a", ⟨"a", some 1, ⟨0, 0, 0⟩, 2, -50, 0⟩),
              ("b", ⟨"b", some 2, ⟨4, 0, 0⟩, 3, -60, 0⟩),
              ("c", ⟨"c", some 3, ⟨0, 4, 0⟩, 0, 0, 0⟩)]
    calibration := [("default", ⟨-60, 2⟩)]
    phonePosition := ⟨7, 8, 9⟩ }

/-- Witness for C2 at a concrete state with two eligible anchors. -/
theorem claim2_witness : updatePhonePosition twoValidState = twoValidState :=
  claim2_insufficient_anchors_keep_position twoValidState
    (by norm_num [twoValidState, validNodesOf])

/-! ### Claim C3: the RSSI-to-distance formula and the default calibration -/

/-- C3: the signal model computes `10 ^ ((RSSIAt1m - rssi) / (10 * PathLoss))`
with the node's own calibration pair when one exists, with the `"default"`
entry of the calibration map otherwise, and the process-wide initial
calibration map carries the default pair `(-60, 2.0)`. -/
theorem claim3_distance_formula_and_default :
    (∀ calib (rssi : ℤ) nodeID params, getKey calib nodeID = some params →
      calculateDistanceFromRSSI calib rssi nodeID =
        (10 : ℝ) ^ ((params.RSSIAt1m - (rssi : ℝ)) / (10 * params.PathLoss))) ∧
    (∀ calib (rssi : ℤ) nodeID defaultParams, getKey calib nodeID = none →
      getKey calib "default" = some defaultParams →
      calculateDistanceFromRSSI calib rssi nodeID =
        (10 : ℝ) ^ ((defaultParams.RSSIAt1m - (rssi : ℝ)) / (10 * defaultParams.PathLoss))) ∧
    getKey initialState.calibration "default" = some ⟨-60, 2⟩ := by
  refine ⟨?_, ?_, ?_⟩
  · intro calib rssi nodeID params h
    simp [calculateDistanceFromRSSI, paramsFor, h]
  · intro calib rssi nodeID defaultParams h hd
    simp [calculateDistanceFromRSSI, paramsFor, h, hd]
  · simp [initialState, getKey]

/-- Witness for C3 on a concrete calibration map: a node-specific pair is used
when present, the default pair when not. -/
theorem claim3_witness :
    calculateDistanceFromRSSI [("default", ⟨-60, 2⟩), ("a", ⟨-55, 3⟩)] (-70) "a" =
      (10 : ℝ) ^ ((-55 - ((-70 : ℤ) : ℝ)) / (10 * 3)) ∧
    calculateDistanceFromRSSI [("default", ⟨-60, 2⟩)] (-70) "unknown" =
      (10 : ℝ) ^ ((-60 - ((-70 : ℤ) : ℝ)) / (10 * 2)) :=
  ⟨claim3_distance_formula_and_default.1 _ (-70) "a" ⟨-55, 3⟩ (by simp [getKey]),
   claim3_distance_formula_and_default.2.1 _ (-70) "unknown" ⟨-60, 2⟩
     (by simp [getKey]) (by simp [getKey])⟩

/-! ### Claim C5: administrative requests with an unknown anchor id -/

/-- One-node state used to exercise the known-id path of the handlers. -/
noncomputable def oneNodeState : ServerState :=
  { nodes := [("a", ⟨"a", some 1, ⟨0, 0, 0⟩, 0, 0, 0⟩)]
    calibration := [("default", ⟨-60, 2⟩)]
    phonePosition := ⟨0, 0, 0⟩ }

/-- C5 counterexample: `POST /calibrate` naming an id absent from the registry
does not answer not-found — it answers `200 {"status":"ok"}` and records the
calibration pair for that id. -/
theorem claim5_counterexample :
    getKey initialState.nodes "ghost" = none ∧
    (calibrationHandler initialState "ghost" (-50) 3).2 = .ok200 ∧
    getKey (calibrationHandler initialState "ghost" (-50) 3).1.calibration "ghost" =
      some ⟨-50, 3⟩ :=
  ⟨rfl, rfl, by simp [calibrationHandler, initialState, getKey, setKey]⟩

/-- C5 amended: `POST /set-node-position` answers 404 with no mutation for an
unknown id and 200 with the position stored for a known one, while
`POST /calibrate` never consults the registry: it stores the pair and answers
200 for any id. -/
theorem claim5_amended :
    (∀ st nodeID pos, getKey st.nodes nodeID = none →
      setNodePositionHandler st nodeID pos = (st, .notFound404)) ∧
    (∀ st nodeID pos node, getKey st.nodes nodeID = some node →
      setNodePositionHandler st nodeID pos =
        ({ st with nodes := setKey st.nodes nodeID { node with Pos := pos } }, .ok200)) ∧
    (∀ st nodeID rssiAt1m pathLoss,
      calibrationHandler st nodeID rssiAt1m pathLoss =
        ({ st with calibration := setKey st.calibration nodeID ⟨rssiAt1m, pathLoss⟩ },
          .ok200)) := by
  refine ⟨?_, ?_, fun _ _ _ _ => rfl⟩
  · intro st nodeID pos h
    simp [setNodePositionHandler, h]
  · intro st nodeID pos node h
    simp [setNodePositionHandler, h]

/-- Witness for C5 amended, at concrete states: unknown id rejected with 404
and no mutation, known id accepted with 200. -/
theorem claim5_witness :
    setNodePositionHandler initialState "ghost" ⟨1, 2, 3⟩ = (initialState, .notFound404) ∧
    (setNodePositionHandler oneNodeState "a" ⟨1, 2, 3⟩).2 = .ok200 ∧
    calibrationHandler oneNodeState "a" (-58) 3 =
      ({ oneNodeState with
          calibration := setKey oneNodeState.calibration "a" ⟨-58, 3⟩ }, .ok200) := by
  refine ⟨claim5_amended.1 initialState "ghost" ⟨1, 2, 3⟩ rfl, ?_, ?_⟩
  · rw [claim5_amended.2.1 oneNodeState "a" ⟨1, 2, 3⟩ ⟨"a", some 1, ⟨0, 0, 0⟩, 0, 0, 0⟩
      (by simp [oneNodeState, getKey])]
  · exact claim5_amended.2.2 oneNodeState "a" (-58) 3

/-! ### Claim C6: positivity and monotonicity of the signal model -/

/-- C6 counterexample: with the calibration pair `(-60, -2)` — a negative path
loss exponent, which the calibrate endpoint accepts — the computed distance
strictly increases, not decreases, as RSSI increases from 0 to 1. -/
theorem claim6_counterexample :
    calculateDistanceFromRSSI [("n", ⟨-60, -2⟩)] 0 "n" <
      calculateDistanceFromRSSI [("n", ⟨-60, -2⟩)] 1 "n" := by
  have h : ∀ r : ℤ, calculateDistanceFromRSSI [("n", ⟨-60, -2⟩)] r "n" =
      (10 : ℝ) ^ ((-60 - (r : ℝ)) / (10 * (-2))) := by
    intro r
    simp [calculateDistanceFromRSSI, paramsFor, getKey]
  rw [h, h, Real.rpow_lt_rpow_left_iff (by norm_num)]
  norm_num

/-- C6 amended: for every RSSI value and calibration pair the computed distance
is strictly positive, and holding a calibration pair with positive path-loss
exponent fixed it strictly decreases as RSSI increases. -/
theorem claim6_amended :
    (∀ calib (rssi : ℤ) nodeID, 0 < calculateDistanceFromRSSI calib rssi nodeID) ∧
    (∀ calib nodeID (r1 r2 : ℤ), r1 < r2 → 0 < (paramsFor calib nodeID).PathLoss →
      calculateDistanceFromRSSI calib r2 nodeID < calculateDistanceFromRSSI calib r1 nodeID) := by
  constructor
  · intro calib rssi nodeID
    exact Real.rpow_pos_of_pos (by norm_num) _
  · intro calib nodeID r1 r2 hr hpl
    simp only [calculateDistanceFromRSSI]
    rw [Real.rpow_lt_rpow_left_iff (by norm_num)]
    have hc : (0 : ℝ) < 10 * (paramsFor calib nodeID).PathLoss := by linarith
    have hnum : (paramsFor calib nodeID).RSSIAt1m - (r2 : ℝ) <
        (paramsFor calib nodeID).RSSIAt1m - (r1 : ℝ) := by
      have : (r1 : ℝ) < (r2 : ℝ) := by exact_mod_cast hr
      linarith
    exact (div_lt_div_iff_of_pos_right hc).mpr hnum

/-- Witness for C6 amended at concrete inputs. -/
theorem claim6_witness :
    0 < calculateDistanceFromRSSI [("default", ⟨-60, 2⟩)] (-70) "x" ∧
    calculateDistanceFromRSSI [("default", ⟨-60, 2⟩)] (-69) "x" <
      calculateDistanceFromRSSI [("default", ⟨-60, 2⟩)] (-70) "x" := by
  constructor
  · exact claim6_amended.1 [("default", ⟨-60, 2⟩)] (-70) "x"
  · exact claim6_amended.2 [("default", ⟨-60, 2⟩)] "x" (-70) (-69) (by norm_num)
      (by simp [paramsFor, getKey])

/-! ### Claim C7: eligibility checks only distance positivity -/

/-- A disconnected node still holding a stale positive distance. -/
noncomputable def staleNode : Node := ⟨"stale", none, ⟨0, 0, 0⟩, 5, -70, 0⟩

/-- A state in which the stale disconnected node sits beside two live ones. -/
noncomputable def staleState : ServerState :=
  { nodes := [("stale", staleNode),
              ("b", ⟨"b", some 2, ⟨4, 0, 0⟩, 2, -50, 9⟩),
              ("c", ⟨"c", some 3, ⟨0, 4, 0⟩, 3, -55, 9⟩)]
    calibration := [("default", ⟨-60, 2⟩)]
    phonePosition := ⟨0, 0, 0⟩ }

/-- C7 counterexample: a disconnected anchor holding a stale positive distance
is selected as valid, and the solve is performed on a node set containing
it. -/
theorem claim7_counterexample :
    staleNode.Conn = none ∧
    staleNode ∈ validNodesOf (staleState.nodes.map Prod.snd) ∧
    updatePhonePosition staleState =
      { staleState with
          phonePosition :=
            trilateratePosition (validNodesOf (staleState.nodes.map Prod.snd)) ⟨0, 0, 0⟩ } := by
  refine ⟨rfl, ?_, ?_⟩
  · norm_num [staleState, validNodesOf, staleNode]
  · have h3 : ¬ (validNodesOf (staleState.nodes.map Prod.snd)).length < 3 := by
      norm_num [staleState, validNodesOf, staleNode]
    simp only [updatePhonePosition]
    rw [if_neg h3]

/-- C7 amended: membership in the solve input set is exactly membership in the
registry with a positive stored distance — connection state and measurement
age are not consulted. -/
theorem claim7_amended (l : List Node) (n : Node) :
    n ∈ validNodesOf l ↔ n ∈ l ∧ 0 < n.Distance := by
  induction l with
  | nil => simp [validNodesOf]
  | cons head t ih =>
    by_cases h : 0 < head.Distance
    · simp only [validNodesOf, if_pos h, List.mem_cons, ih]
      constructor
      · rintro (rfl | ⟨hm, hd⟩)
        · exact ⟨Or.inl rfl, h⟩
        · exact ⟨Or.inr hm, hd⟩
      · rintro ⟨rfl | hm, hd⟩
        · exact Or.inl rfl
        · exact Or.inr ⟨hm, hd⟩
    · simp only [validNodesOf, if_neg h, List.mem_cons, ih]
      constructor
      · rintro ⟨hm, hd⟩
        exact ⟨Or.inr hm, hd⟩
      · rintro ⟨rfl | hm, hd⟩
        · exact absurd hd h
        · exact ⟨hm, hd⟩

/-! ### Claim C8: malformed payloads -/

/-- A state with one fresh node, used to expose the `LastSeen` refresh. -/
noncomputable def c8State : ServerState :=
  { nodes := [("a", ⟨"a", some 1, ⟨0, 0, 0⟩, 0, 0, 0⟩)]
    calibration := [("default", ⟨-60, 2⟩)]
    phonePosition := ⟨0, 0, 0⟩ }

/-- C8 counterexample: a malformed (undecodable) frame does change registry
state — the sender's `LastSeen` timestamp is refreshed before decoding is even
attempted. -/
theorem claim8_counterexample :
    (handleMessage c8State "a" (.text "garbled") 5).1 ≠ c8State := by
  intro hEq
  have h := congrArg (fun st => (getKey st.nodes "a").map Node.LastSeen) hEq
  simp [c8State, handleMessage, updateLastSeen, getKey, setKey] at h

/-- C8 amended: a malformed inbound payload is discarded: processing it equals
the bare `LastSeen` refresh — phone position, calibration map and every other
node field are untouched — and the connection stays open. -/
theorem claim8_amended (st : ServerState) (nodeID : String) (s : String) (now : ℤ) :
    handleMessage st nodeID (.text s) now = (updateLastSeen st nodeID now, true) ∧
    (handleMessage st nodeID (.text s) now).1.phonePosition = st.phonePosition ∧
    (handleMessage st nodeID (.text s) now).1.calibration = st.calibration := by
  refine ⟨rfl, ?_, ?_⟩ <;>
    cases h : getKey st.nodes nodeID <;>
      simp [handleMessage, updateLastSeen, h]

/-! ### Claim C1: the solver equals the spec's reference gradient descent

The `spec...` definitions below are written from the spec's §4.2 wording —
candidate/anchor vector differences, Euclidean norms, residuals, a scalar
multiple of the difference vector as the per-anchor contribution — and are then
proved equal to the source embedding. -/

/-- Vector difference `candidate − anchorPos` of the spec. -/
noncomputable def specSub (p q : Position) : Position :=
  ⟨p.X - q.X, p.Y - q.Y, p.Z - q.Z⟩

/-- Vector sum, used to accumulate gradient contributions. -/
noncomputable def specAdd (p q : Position) : Position :=
  ⟨p.X + q.X, p.Y + q.Y, p.Z + q.Z⟩

/-- Scalar multiple of a vector. -/
noncomputable def specSmul (c : ℝ) (p : Position) : Position :=
  ⟨c * p.X, c * p.Y, c * p.Z⟩

/-- Euclidean norm `‖·‖` of the spec. -/
noncomputable def specNorm (p : Position) : ℝ :=
  Real.sqrt (p.X ^ 2 + p.Y ^ 2 + p.Z ^ 2)

open Classical in
/-- Spec §4.2 gradient: sum over all anchors of
`2 × residual × (candidate − anchorPos) / ‖candidate − anchorPos‖` with
`residual = ‖candidate − anchorPos‖ − measuredDistance`, skipping an anchor
whose distance to the candidate is exactly zero. -/
noncomputable def specGradient (anchors : List Node) (candidate : Position) : Position :=
  anchors.foldl
    (fun g anchor =>
      let diff := specSub candidate anchor.Pos
      let dist := specNorm diff
      if dist = 0 then g
      else specAdd g (specSmul (2 * (dist - anchor.Distance) / dist) diff))
    ⟨0, 0, 0⟩

open Classical in
/-- Spec §4.2 descent: update `candidate −= 0.1 × gradient` and stop early once
the gradient magnitude drops below `0.001`, running at most the given number of
iterations. -/
noncomputable def specDescent (anchors : List Node) : ℕ → Position → Position
  | 0, candidate => candidate
  | k + 1, candidate =>
    let g := specGradient anchors candidate
    let next := specSub candidate (specSmul (1 / 10) g)
    if specNorm g < 1 / 1000 then next
    else specDescent anchors k next

/-- Spec §4.2 solver: at most 100 iterations starting from the origin. -/
noncomputable def specSolve (anchors : List Node) : Position :=
  specDescent anchors 100 ⟨0, 0, 0⟩

/-- The source's gradient accumulation equals the spec's. -/
theorem gradientAt_eq_specGradient (nodes : List Node) (p : Position) :
    gradientAt nodes p = specGradient nodes p := by
  unfold gradientAt specGradient
  apply List.foldl_ext
  intro acc node _
  simp only [specSub, specNorm, specAdd, specSmul]
  have harg : (p.X - node.Pos.X) ^ 2 + (p.Y - node.Pos.Y) ^ 2 + (p.Z - node.Pos.Z) ^ 2 =
      (p.X - node.Pos.X) * (p.X - node.Pos.X) + (p.Y - node.Pos.Y) * (p.Y - node.Pos.Y) +
        (p.Z - node.Pos.Z) * (p.Z - node.Pos.Z) := by
    ring
  rw [harg]
  rcases (Real.sqrt_nonneg ((p.X - node.Pos.X) * (p.X - node.Pos.X) +
      (p.Y - node.Pos.Y) * (p.Y - node.Pos.Y) +
      (p.Z - node.Pos.Z) * (p.Z - node.Pos.Z))).lt_or_eq with h | h
  · rw [if_pos h, if_neg h.ne']
    simp only [Position.mk.injEq]
    refine ⟨by ring, by ring, by ring⟩
  · rw [if_neg (by rw [← h]; exact lt_irrefl 0), if_pos h.symm]

/-- The source's descent loop equals the spec's, for any fuel. -/
theorem trilatLoop_eq_specDescent (nodes : List Node) :
    ∀ (fuel : ℕ) (p : Position), (trilatLoop nodes fuel p).1 = specDescent nodes fuel p := by
  intro fuel
  induction fuel with
  | zero => intro p; rfl
  | succ k ih =>
    intro p
    have hLR : learningRate = 1 / 10 := by norm_num [learningRate]
    have hCT : convergenceThreshold = 1 / 1000 := by norm_num [convergenceThreshold]
    rw [trilatLoop, specDescent]
    simp only [hLR, hCT, ← gradientAt_eq_specGradient, specSub, specSmul, specNorm]
    have hmag : Real.sqrt ((gradientAt nodes p).X ^ 2 + (gradientAt nodes p).Y ^ 2 +
        (gradientAt nodes p).Z ^ 2) =
        Real.sqrt ((gradientAt nodes p).X * (gradientAt nodes p).X +
          (gradientAt nodes p).Y * (gradientAt nodes p).Y +
          (gradientAt nodes p).Z * (gradientAt nodes p).Z) := by
      congr 1
      ring
    rw [hmag]
    by_cases hcond : Real.sqrt ((gradientAt nodes p).X * (gradientAt nodes p).X +
        (gradientAt nodes p).Y * (gradientAt nodes p).Y +
        (gradientAt nodes p).Z * (gradientAt nodes p).Z) < 1 / 1000
    · rw [if_pos hcond, if_pos hcond]
    · rw [if_neg hcond, if_neg hcond]
      exact ih _

/-- C1: on every anchor list, the source solver started from the origin equals
the spec's reference gradient descent — same per-anchor contributions with the
zero-distance skip, step size 0.1, threshold 0.001, at most 100 iterations,
early stop after the update, last candidate returned with no failure. -/
theorem claim1_solver_equals_spec_descent (anchors : List Node) :
    trilateratePosition anchors ⟨0, 0, 0⟩ = specSolve anchors :=
  trilatLoop_eq_specDescent anchors 100 ⟨0, 0, 0⟩

/-! ### Claim C10: the visualization clients map and the pre-solve position -/

/-- C10: in every reachable state the visualization response's clients map is
exactly the single entry `"PHONE"` carrying the current phone position, and as
long as no event has performed a qualifying solve (a distance report leaving at
least 3 anchors with positive distance), that position is still the origin. -/
theorem claim10_visualization_clients (events : List Event) :
    (visualizationHandler (run events)).Clients = [("PHONE", (run events).phonePosition)] ∧
    (noSolveDuring initialState events → (run events).phonePosition = ⟨0, 0, 0⟩) := by
  refine ⟨rfl, fun h => ?_⟩
  rw [run, foldl_phonePosition_of_noSolve events initialState h]
  rfl

/-- A concrete solve-free trace: one anchor connects, reports one distance
(leaving a single eligible anchor), and an administrative calibrate runs. -/
noncomputable def quietTrace : List Event :=
  [.connect "ESP_10_0_0_4" 1 0,
   .message "ESP_10_0_0_4" (.distanceMsg (-55) 2) 1,
   .calibrate "phone" (-50) 3]

/-- Witness for C10 on the concrete solve-free trace. -/
theorem claim10_witness :
    (visualizationHandler (run quietTrace)).Clients =
      [("PHONE", (run quietTrace).phonePosition)] ∧
    (run quietTrace).phonePosition = ⟨0, 0, 0⟩ :=
  ⟨(claim10_visualization_clients quietTrace).1,
   (claim10_visualization_clients quietTrace).2 (by
    norm_num [quietTrace, noSolveDuring, solveInvoked, step, wsConnect, initialState,
      updateLastSeen, recordDistance, getKey, setKey, validNodesOf, handleMessage,
      updatePhonePosition, calibrationHandler])⟩

/-! ### Claim C4: disconnect and reconnect of the same hardware id -/

/-- Events up to the disconnect: connect, set position, calibrate,
disconnect. -/
noncomputable def preDisconnectEvents : List Event :=
  [.connect "ESP_192_168_0_7" 1 0,
   .setNodePosition "ESP_192_168_0_7" ⟨1, 2, 3⟩,
   .calibrate "ESP_192_168_0_7" (-58) 3,
   .disconnect "ESP_192_168_0_7" 1]

/-- The same trace followed by a reconnect of the same hardware id. -/
noncomputable def reconnectEvents : List Event :=
  preDisconnectEvents ++ [.connect "ESP_192_168_0_7" 2 5]

/-- C4, evaluated at the failing input: the disconnect does null the connection
handle while keeping the record (position `(1,2,3)` and calibration survive),
but the reconnect of the same hardware id overwrites the record with a fresh
node — the previously set position is reset to the origin (the separately
stored calibration pair does survive). -/
theorem claim4_reconnect_resets_position :
    ((getKey (run preDisconnectEvents).nodes "ESP_192_168_0_7").map Node.Conn =
        some none ∧
      (getKey (run preDisconnectEvents).nodes "ESP_192_168_0_7").map Node.Pos =
        some ⟨1, 2, 3⟩ ∧
      getKey (run preDisconnectEvents).calibration "ESP_192_168_0_7" = some ⟨-58, 3⟩) ∧
    ((getKey (run reconnectEvents).nodes "ESP_192_168_0_7").map Node.Conn =
        some (some 2) ∧
      (getKey (run reconnectEvents).nodes "ESP_192_168_0_7").map Node.Pos =
        some ⟨0, 0, 0⟩ ∧
      getKey (run reconnectEvents).calibration "ESP_192_168_0_7" = some ⟨-58, 3⟩) := by
  refine ⟨⟨?_, ?_, ?_⟩, ⟨?_, ?_, ?_⟩⟩ <;>
    simp [run, preDisconnectEvents, reconnectEvents, step, wsConnect, markDisconnected,
      setNodePositionHandler, calibrationHandler, initialState, getKey, setKey]

/-! ### Claim C9: verified fixed-point interval arithmetic

To settle the concrete convergence scenario of the spec we build a small
verified interval-arithmetic layer.  Numbers are represented in fixed point as
integers scaled by `KI = 10^18`; every operation rounds outward, so an interval
soundly encloses the corresponding real computation of the solver. -/

def KI : ℤ := 1000000000000000000

/-- The real number represented by a `KI`-scaled integer. -/
noncomputable def toR (n : ℤ) : ℝ := (n : ℝ) / (KI : ℝ)

/-- Ceiling division for a positive divisor. -/
def cdiv (a b : ℤ) : ℤ := -((-a) / b)

/-- A closed interval with `KI`-scaled integer endpoints. -/
structure Itv where
  lo : ℤ
  hi : ℤ

/-- Interval membership of a real number. -/
def memItv (x : ℝ) (I : Itv) : Prop := toR I.lo ≤ x ∧ x ≤ toR I.hi

theorem KR_pos : (0 : ℝ) < (KI : ℝ) := by norm_num [KI]

theorem toR_mono {a b : ℤ} (h : a ≤ b) : toR a ≤ toR b := by
  rw [toR, toR, div_eq_mul_inv, div_eq_mul_inv]
  exact mul_le_mul_of_nonneg_right (by exact_mod_cast h) (inv_nonneg.mpr KR_pos.le)

theorem toR_lt_toR {a b : ℤ} (h : a < b) : toR a < toR b :=
  (div_lt_div_iff_of_pos_right KR_pos).mpr (by exact_mod_cast h)

theorem toR_zero : toR 0 = 0 := by simp [toR]

theorem toR_pos {a : ℤ} (h : 0 < a) : 0 < toR a := toR_zero ▸ toR_lt_toR h

theorem toR_le_toR_iff {a b : ℤ} : toR a ≤ toR b ↔ a ≤ b := by
  rw [toR, toR, div_le_div_iff_of_pos_right KR_pos]
  exact_mod_cast Iff.rfl

/-- Floor division under-approximates the real quotient (positive divisor). -/
theorem cast_ediv_le {a b : ℤ} (hb : 0 < b) : ((a / b : ℤ) : ℝ) ≤ (a : ℝ) / (b : ℝ) := by
  rw [le_div_iff₀ (by exact_mod_cast hb)]
  have h := Int.ediv_add_emod a b
  have hr : (0 : ℤ) ≤ a % b := Int.emod_nonneg a hb.ne'
  have hcast : (b : ℝ) * ((a / b : ℤ) : ℝ) + ((a % b : ℤ) : ℝ) = (a : ℝ) := by
    exact_mod_cast congrArg (Int.cast : ℤ → ℝ) h
  have hr2 : (0 : ℝ) ≤ ((a % b : ℤ) : ℝ) := by exact_mod_cast hr
  nlinarith

/-- Ceiling division over-approximates the real quotient (positive divisor). -/
theorem le_cast_cdiv {a b : ℤ} (hb : 0 < b) : (a : ℝ) / (b : ℝ) ≤ ((cdiv a b : ℤ) : ℝ) := by
  have h := cast_ediv_le (a := -a) hb
  rw [cdiv]
  push_cast at h ⊢
  rw [neg_div] at h
  linarith

/-! Interval operations. -/

def addItv (a b : Itv) : Itv := ⟨a.lo + b.lo, a.hi + b.hi⟩

def subItv (a b : Itv) : Itv := ⟨a.lo - b.hi, a.hi - b.lo⟩

def doubleItv (a : Itv) : Itv := ⟨2 * a.lo, 2 * a.hi⟩

def tenthItv (a : Itv) : Itv := ⟨a.lo / 10, cdiv a.hi 10⟩

def imin (a b : ℤ) : ℤ := if a ≤ b then a else b

def imax (a b : ℤ) : ℤ := if a ≤ b then b else a

def imin4 (a b c d : ℤ) : ℤ := imin (imin a b) (imin c d)

def imax4 (a b c d : ℤ) : ℤ := imax (imax a b) (imax c d)

def mulItv (a b : Itv) : Itv :=
  ⟨imin4 (a.lo * b.lo) (a.lo * b.hi) (a.hi * b.lo) (a.hi * b.hi) / KI,
   cdiv (imax4 (a.lo * b.lo) (a.lo * b.hi) (a.hi * b.lo) (a.hi * b.hi)) KI⟩

def divDown (a b : ℤ) : ℤ := a * KI / b

def divUp (a b : ℤ) : ℤ := cdiv (a * KI) b

def divItv (a b : Itv) : Itv :=
  ⟨imin4 (divDown a.lo b.hi) (divDown a.lo b.lo) (divDown a.hi b.hi) (divDown a.hi b.lo),
   imax4 (divUp a.lo b.hi) (divUp a.lo b.lo) (divUp a.hi b.hi) (divUp a.hi b.lo)⟩

/-- Fuel-driven binary search keeping the invariant `lo² ≤ n < hi²`. -/
def sqrtAux (n : ℕ) : ℕ → ℕ → ℕ → ℕ × ℕ
  | 0, lo, hi => (lo, hi)
  | f + 1, lo, hi =>
    if (lo + hi) / 2 = lo then (lo, hi)
    else if (lo + hi) / 2 * ((lo + hi) / 2) ≤ n then sqrtAux n f ((lo + hi) / 2) hi
    else sqrtAux n f lo ((lo + hi) / 2)

/-- Integer square-root bounds: a pair `(l, u)` with `l² ≤ n < u²`. -/
def sqrtBounds (n : ℕ) : ℕ × ℕ := sqrtAux n 300 0 (n + 1)

/-- A few Newton steps toward the integer square root.  No properties of this
function are needed: `sqrtBoundsFast` certifies its output by two checks. -/
def newtonIter (n : ℕ) : ℕ → ℕ → ℕ
  | 0, g => g
  | f + 1, g =>
    if (g + n / g) / 2 < g then newtonIter n f ((g + n / g) / 2) else g

/-- Integer square-root bounds `(l, u)` with `l² ≤ n < u²`, obtained from a
Newton guess and certified by direct checks (with sound wide fallbacks). -/
def sqrtBoundsFast (n : ℕ) : ℕ × ℕ :=
  let c := newtonIter n 80 10000000000000000000
  (if c * c ≤ n then c else if (c - 1) * (c - 1) ≤ n then c - 1 else 0,
   if n < (c + 1) * (c + 1) then c + 1 else if n < (c + 2) * (c + 2) then c + 2 else n + 1)

theorem sqrtBoundsFast_lower (n : ℕ) : (sqrtBoundsFast n).1 * (sqrtBoundsFast n).1 ≤ n := by
  unfold sqrtBoundsFast
  dsimp only
  split
  · next h => exact h
  · split
    · next h => exact h
    · exact n.zero_le

theorem sqrtBoundsFast_upper (n : ℕ) : n < (sqrtBoundsFast n).2 * (sqrtBoundsFast n).2 := by
  unfold sqrtBoundsFast
  dsimp only
  split
  · next h => exact h
  · split
    · next h => exact h
    · nlinarith [n.zero_le]

def sqrtItv (a : Itv) : Itv :=
  if a.hi ≤ 0 then ⟨0, 0⟩
  else ⟨((sqrtBoundsFast (a.lo * KI).toNat).1 : ℤ), ((sqrtBoundsFast (a.hi * KI).toNat).2 : ℤ)⟩

/-! Soundness of the operations. -/

theorem imin_le_left (a b : ℤ) : imin a b ≤ a := by unfold imin; split <;> omega

theorem imin_le_right (a b : ℤ) : imin a b ≤ b := by unfold imin; split <;> omega

theorem le_imax_left (a b : ℤ) : a ≤ imax a b := by unfold imax; split <;> omega

theorem le_imax_right (a b : ℤ) : b ≤ imax a b := by unfold imax; split <;> omega

theorem memItv_add {x y : ℝ} {a b : Itv} (hx : memItv x a) (hy : memItv y b) :
    memItv (x + y) (addItv a b) := by
  obtain ⟨h1, h2⟩ := hx
  obtain ⟨h3, h4⟩ := hy
  simp only [toR] at h1 h2 h3 h4
  constructor <;> · rw [addItv, toR]; push_cast; rw [add_div]; linarith

theorem memItv_sub {x y : ℝ} {a b : Itv} (hx : memItv x a) (hy : memItv y b) :
    memItv (x - y) (subItv a b) := by
  obtain ⟨h1, h2⟩ := hx
  obtain ⟨h3, h4⟩ := hy
  simp only [toR] at h1 h2 h3 h4
  constructor <;> · rw [subItv, toR]; push_cast; rw [sub_div]; linarith

theorem memItv_double {x : ℝ} {a : Itv} (hx : memItv x a) :
    memItv (2 * x) (doubleItv a) := by
  obtain ⟨h1, h2⟩ := hx
  simp only [toR] at h1 h2
  constructor <;> · rw [doubleItv, toR]; push_cast; rw [mul_div_assoc]; linarith

theorem div_pos_mono {u v c : ℝ} (hc : 0 < c) (h : u ≤ v) : u / c ≤ v / c := by
  rw [div_eq_mul_inv, div_eq_mul_inv]
  exact mul_le_mul_of_nonneg_right h (inv_nonneg.mpr hc.le)

theorem memItv_tenth {x : ℝ} {a : Itv} (hx : memItv x a) :
    memItv (x / 10) (tenthItv a) := by
  obtain ⟨h1, h2⟩ := hx
  constructor
  · have s1 : ((a.lo / 10 : ℤ) : ℝ) ≤ (a.lo : ℝ) / 10 := cast_ediv_le (by norm_num)
    have s2 : ((a.lo / 10 : ℤ) : ℝ) / (KI : ℝ) ≤ ((a.lo : ℝ) / 10) / (KI : ℝ) :=
      div_pos_mono KR_pos s1
    have s3 : ((a.lo : ℝ) / 10) / (KI : ℝ) = toR a.lo / 10 := by
      rw [toR, div_right_comm]
    have s4 : toR a.lo / 10 ≤ x / 10 := div_pos_mono (by norm_num) h1
    rw [tenthItv, toR]
    dsimp only
    linarith
  · have s1 : (a.hi : ℝ) / 10 ≤ ((cdiv a.hi 10 : ℤ) : ℝ) := le_cast_cdiv (by norm_num)
    have s2 : ((a.hi : ℝ) / 10) / (KI : ℝ) ≤ ((cdiv a.hi 10 : ℤ) : ℝ) / (KI : ℝ) :=
      div_pos_mono KR_pos s1
    have s3 : ((a.hi : ℝ) / 10) / (KI : ℝ) = toR a.hi / 10 := by
      rw [toR, div_right_comm]
    have s4 : x / 10 ≤ toR a.hi / 10 := div_pos_mono (by norm_num) h2
    rw [tenthItv, toR]
    dsimp only
    linarith

/-- Upper interval-product bound: the product of two bracketed reals is at most
the maximum of the four endpoint products. -/
theorem mul_le_max4 {a b c d x y : ℝ} (ha : a ≤ x) (hb : x ≤ b) (hc : c ≤ y) (hd : y ≤ d) :
    x * y ≤ max (max (a * c) (a * d)) (max (b * c) (b * d)) := by
  rcases le_total 0 y with hy | hy
  · rcases le_total 0 b with hb0 | hb0
    · refine le_trans ?_ (le_max_of_le_right (le_max_right _ _))
      nlinarith
    · refine le_trans ?_ (le_max_of_le_right (le_max_left _ _))
      nlinarith
  · rcases le_total 0 a with ha0 | ha0
    · refine le_trans ?_ (le_max_of_le_left (le_max_right _ _))
      nlinarith
    · refine le_trans ?_ (le_max_of_le_left (le_max_left _ _))
      nlinarith

/-- Lower interval-product bound. -/
theorem min4_le_mul {a b c d x y : ℝ} (ha : a ≤ x) (hb : x ≤ b) (hc : c ≤ y) (hd : y ≤ d) :
    min (min (a * c) (a * d)) (min (b * c) (b * d)) ≤ x * y := by
  rcases le_total 0 y with hy | hy
  · rcases le_total 0 a with ha0 | ha0
    · refine le_trans (min_le_of_left_le (min_le_left _ _)) ?_
      nlinarith
    · refine le_trans (min_le_of_left_le (min_le_right _ _)) ?_
      nlinarith
  · rcases le_total 0 b with hb0 | hb0
    · refine le_trans (min_le_of_right_le (min_le_left _ _)) ?_
      nlinarith
    · refine le_trans (min_le_of_right_le (min_le_right _ _)) ?_
      nlinarith

theorem toR_ediv_KI_le (m : ℤ) : toR (m / KI) ≤ (m : ℝ) / ((KI : ℝ) * (KI : ℝ)) := by
  have s1 : ((m / KI : ℤ) : ℝ) ≤ (m : ℝ) / (KI : ℝ) := cast_ediv_le (by norm_num [KI])
  have s2 := div_pos_mono KR_pos s1
  rw [toR]
  calc ((m / KI : ℤ) : ℝ) / (KI : ℝ) ≤ ((m : ℝ) / (KI : ℝ)) / (KI : ℝ) := s2
    _ = (m : ℝ) / ((KI : ℝ) * (KI : ℝ)) := by rw [div_div]

theorem le_toR_cdiv_KI (m : ℤ) : (m : ℝ) / ((KI : ℝ) * (KI : ℝ)) ≤ toR (cdiv m KI) := by
  have s1 : (m : ℝ) / (KI : ℝ) ≤ ((cdiv m KI : ℤ) : ℝ) := le_cast_cdiv (by norm_num [KI])
  have s2 := div_pos_mono KR_pos s1
  rw [toR]
  calc (m : ℝ) / ((KI : ℝ) * (KI : ℝ)) = ((m : ℝ) / (KI : ℝ)) / (KI : ℝ) := by rw [div_div]
    _ ≤ ((cdiv m KI : ℤ) : ℝ) / (KI : ℝ) := s2

/-- Product of the scaled representations of two integers. -/
theorem toR_mul_toR (p q : ℤ) : toR p * toR q = ((p * q : ℤ) : ℝ) / ((KI : ℝ) * (KI : ℝ)) := by
  rw [toR, toR]
  push_cast
  ring

theorem memItv_mul {x y : ℝ} {a b : Itv} (hx : memItv x a) (hy : memItv y b) :
    memItv (x * y) (mulItv a b) := by
  obtain ⟨h1, h2⟩ := hx
  obtain ⟨h3, h4⟩ := hy
  have K2 : (0 : ℝ) < (KI : ℝ) * (KI : ℝ) := mul_pos KR_pos KR_pos
  constructor
  · have hmin := min4_le_mul h1 h2 h3 h4
    have step : ∀ p q : ℤ,
        imin4 (a.lo * b.lo) (a.lo * b.hi) (a.hi * b.lo) (a.hi * b.hi) ≤ p * q →
        toR (imin4 (a.lo * b.lo) (a.lo * b.hi) (a.hi * b.lo) (a.hi * b.hi) / KI) ≤
          toR p * toR q := by
      intro p q hle
      refine le_trans (toR_ediv_KI_le _) ?_
      rw [toR_mul_toR]
      exact div_pos_mono K2 (by exact_mod_cast hle)
    have c1 := step a.lo b.lo ((imin_le_left _ _).trans (imin_le_left _ _))
    have c2 := step a.lo b.hi ((imin_le_left _ _).trans (imin_le_right _ _))
    have c3 := step a.hi b.lo ((imin_le_right _ _).trans (imin_le_left _ _))
    have c4 := step a.hi b.hi ((imin_le_right _ _).trans (imin_le_right _ _))
    show toR ((mulItv a b).lo) ≤ x * y
    rw [mulItv]
    dsimp only
    refine le_trans (le_min (le_min c1 c2) (le_min c3 c4)) ?_
    exact le_trans (by exact le_refl _) hmin
  · have hmax := mul_le_max4 h1 h2 h3 h4
    have step : ∀ p q : ℤ,
        p * q ≤ imax4 (a.lo * b.lo) (a.lo * b.hi) (a.hi * b.lo) (a.hi * b.hi) →
        toR p * toR q ≤
          toR (cdiv (imax4 (a.lo * b.lo) (a.lo * b.hi) (a.hi * b.lo) (a.hi * b.hi)) KI) := by
      intro p q hle
      refine le_trans ?_ (le_toR_cdiv_KI _)
      rw [toR_mul_toR]
      exact div_pos_mono K2 (by exact_mod_cast hle)
    have c1 := step a.lo b.lo ((le_imax_left _ _).trans (le_imax_left _ _))
    have c2 := step a.lo b.hi ((le_imax_right _ _).trans (le_imax_left _ _))
    have c3 := step a.hi b.lo ((le_imax_left _ _).trans (le_imax_right _ _))
    have c4 := step a.hi b.hi ((le_imax_right _ _).trans (le_imax_right _ _))
    show x * y ≤ toR ((mulItv a b).hi)
    rw [mulItv]
    dsimp only
    exact le_trans hmax (max_le (max_le c1 c2) (max_le c3 c4))

theorem toR_divDown_le {p q : ℤ} (hq : 0 < q) : toR (divDown p q) ≤ toR p / toR q := by
  have hq0 : ((q : ℤ) : ℝ) ≠ 0 := by exact_mod_cast hq.ne'
  have hK0 : (KI : ℝ) ≠ 0 := KR_pos.ne'
  have s1 : ((p * KI / q : ℤ) : ℝ) ≤ ((p * KI : ℤ) : ℝ) / (q : ℝ) := cast_ediv_le hq
  have heq : (((p * KI : ℤ) : ℝ) / (q : ℝ)) / (KI : ℝ) = toR p / toR q := by
    rw [toR, toR]
    push_cast
    field_simp
    ring
  rw [divDown, toR]
  calc ((p * KI / q : ℤ) : ℝ) / (KI : ℝ) ≤ (((p * KI : ℤ) : ℝ) / (q : ℝ)) / (KI : ℝ) :=
        div_pos_mono KR_pos s1
    _ = toR p / toR q := heq

theorem le_toR_divUp {p q : ℤ} (hq : 0 < q) : toR p / toR q ≤ toR (divUp p q) := by
  have hq0 : ((q : ℤ) : ℝ) ≠ 0 := by exact_mod_cast hq.ne'
  have hK0 : (KI : ℝ) ≠ 0 := KR_pos.ne'
  have s1 : ((p * KI : ℤ) : ℝ) / (q : ℝ) ≤ ((cdiv (p * KI) q : ℤ) : ℝ) := le_cast_cdiv hq
  have heq : (((p * KI : ℤ) : ℝ) / (q : ℝ)) / (KI : ℝ) = toR p / toR q := by
    rw [toR, toR]
    push_cast
    field_simp
    ring
  rw [divUp, toR]
  calc toR p / toR q = (((p * KI : ℤ) : ℝ) / (q : ℝ)) / (KI : ℝ) := heq.symm
    _ ≤ ((cdiv (p * KI) q : ℤ) : ℝ) / (KI : ℝ) := div_pos_mono KR_pos s1

theorem memItv_div {x y : ℝ} {a b : Itv} (hx : memItv x a) (hy : memItv y b)
    (hb : 0 < b.lo) : memItv (x / y) (divItv a b) := by
  obtain ⟨h1, h2⟩ := hx
  obtain ⟨h3, h4⟩ := hy
  have hylo : 0 < toR b.lo := toR_pos hb
  have hy0 : 0 < y := lt_of_lt_of_le hylo h3
  have hbhiR : 0 < toR b.hi := lt_of_lt_of_le hy0 h4
  have hbhi : 0 < b.hi := by
    by_contra hcon
    push_neg at hcon
    have hmono := toR_mono hcon
    rw [toR_zero] at hmono
    linarith
  have hinv1 : 1 / toR b.hi ≤ 1 / y := one_div_le_one_div_of_le hy0 h4
  have hinv2 : 1 / y ≤ 1 / toR b.lo := one_div_le_one_div_of_le hylo h3
  have hprod := min4_le_mul h1 h2 hinv1 hinv2
  have hprod2 := mul_le_max4 h1 h2 hinv1 hinv2
  rw [mul_one_div, mul_one_div, mul_one_div, mul_one_div, mul_one_div] at hprod hprod2
  constructor
  · have c1 : toR ((divItv a b).lo) ≤ toR a.lo / toR b.hi :=
      le_trans (toR_mono ((imin_le_left _ _).trans (imin_le_left _ _)))
        (toR_divDown_le hbhi)
    have c2 : toR ((divItv a b).lo) ≤ toR a.lo / toR b.lo :=
      le_trans (toR_mono ((imin_le_left _ _).trans (imin_le_right _ _)))
        (toR_divDown_le hb)
    have c3 : toR ((divItv a b).lo) ≤ toR a.hi / toR b.hi :=
      le_trans (toR_mono ((imin_le_right _ _).trans (imin_le_left _ _)))
        (toR_divDown_le hbhi)
    have c4 : toR ((divItv a b).lo) ≤ toR a.hi / toR b.lo :=
      le_trans (toR_mono ((imin_le_right _ _).trans (imin_le_right _ _)))
        (toR_divDown_le hb)
    exact le_trans (le_min (le_min c1 c2) (le_min c3 c4)) hprod
  · have c1 : toR a.lo / toR b.hi ≤ toR ((divItv a b).hi) :=
      le_trans (le_toR_divUp hbhi)
        (toR_mono ((le_imax_left _ _).trans (le_imax_left _ _)))
    have c2 : toR a.lo / toR b.lo ≤ toR ((divItv a b).hi) :=
      le_trans (le_toR_divUp hb)
        (toR_mono ((le_imax_right _ _).trans (le_imax_left _ _)))
    have c3 : toR a.hi / toR b.hi ≤ toR ((divItv a b).hi) :=
      le_trans (le_toR_divUp hbhi)
        (toR_mono ((le_imax_left _ _).trans (le_imax_right _ _)))
    have c4 : toR a.hi / toR b.lo ≤ toR ((divItv a b).hi) :=
      le_trans (le_toR_divUp hb)
        (toR_mono ((le_imax_right _ _).trans (le_imax_right _ _)))
    exact le_trans hprod2 (max_le (max_le c1 c2) (max_le c3 c4))

theorem sqrtAux_inv (n : ℕ) : ∀ (f lo hi : ℕ), lo * lo ≤ n → n < hi * hi →
    ((sqrtAux n f lo hi).1 * (sqrtAux n f lo hi).1 ≤ n ∧
      n < (sqrtAux n f lo hi).2 * (sqrtAux n f lo hi).2) := by
  intro f
  induction f with
  | zero =>
    intro lo hi h1 h2
    exact ⟨h1, h2⟩
  | succ k ih =>
    intro lo hi h1 h2
    rw [sqrtAux]
    split
    · exact ⟨h1, h2⟩
    · split
      · next hle => exact ih _ _ hle h2
      · next hgt => exact ih _ _ h1 (Nat.lt_of_not_le hgt)

theorem sqrtBounds_lower (n : ℕ) : (sqrtBounds n).1 * (sqrtBounds n).1 ≤ n :=
  (sqrtAux_inv n 300 0 (n + 1) (by simp) (by nlinarith)).1

theorem sqrtBounds_upper (n : ℕ) : n < (sqrtBounds n).2 * (sqrtBounds n).2 :=
  (sqrtAux_inv n 300 0 (n + 1) (by simp) (by nlinarith)).2

theorem toR_sq (p : ℤ) : toR p ^ 2 = ((p * p : ℤ) : ℝ) / ((KI : ℝ) * (KI : ℝ)) := by
  rw [toR]
  push_cast
  ring

theorem memItv_sqrt {x : ℝ} {a : Itv} (hx : memItv x a) :
    memItv (Real.sqrt x) (sqrtItv a) := by
  obtain ⟨h1, h2⟩ := hx
  have K2 : (0 : ℝ) < (KI : ℝ) * (KI : ℝ) := mul_pos KR_pos KR_pos
  rw [sqrtItv]
  split
  · next hle =>
    have hx0 : x ≤ 0 := le_trans h2 (by simpa [toR_zero] using toR_mono hle)
    rw [Real.sqrt_eq_zero_of_nonpos hx0]
    exact ⟨le_of_eq toR_zero, le_of_eq toR_zero.symm⟩
  · next hgt =>
    push_neg at hgt
    constructor
    · rcases le_or_lt a.lo 0 with hlo | hlo
      · have ht : (a.lo * KI).toNat = 0 := by
          rw [Int.toNat_eq_zero]
          nlinarith [show (0 : ℤ) ≤ KI by norm_num [KI]]
        show toR ((sqrtBoundsFast (a.lo * KI).toNat).1 : ℤ) ≤ Real.sqrt x
        rw [ht]
        have hl0 : (sqrtBoundsFast 0).1 = 0 :=
          mul_self_eq_zero.mp (Nat.le_zero.mp (sqrtBoundsFast_lower 0))
        rw [hl0]
        exact toR_zero.trans_le (Real.sqrt_nonneg x)
      · have ht : (((a.lo * KI).toNat : ℤ)) = a.lo * KI :=
          Int.toNat_of_nonneg (by nlinarith [show (0 : ℤ) < KI by norm_num [KI]])
        have hll : ((sqrtBoundsFast (a.lo * KI).toNat).1 : ℤ) *
            ((sqrtBoundsFast (a.lo * KI).toNat).1 : ℤ) ≤ a.lo * KI := by
          rw [← ht]
          exact_mod_cast sqrtBoundsFast_lower _
        show toR ((sqrtBoundsFast (a.lo * KI).toNat).1 : ℤ) ≤ Real.sqrt x
        apply Real.le_sqrt_of_sq_le
        rw [toR_sq]
        have hK0 : (KI : ℝ) ≠ 0 := KR_pos.ne'
        have e3 : ((a.lo * KI : ℤ) : ℝ) / ((KI : ℝ) * (KI : ℝ)) = toR a.lo := by
          rw [toR]
          push_cast
          field_simp
          ring
        calc ((((sqrtBoundsFast (a.lo * KI).toNat).1 : ℤ) *
              ((sqrtBoundsFast (a.lo * KI).toNat).1 : ℤ) : ℤ) : ℝ) / ((KI : ℝ) * (KI : ℝ)) ≤
            ((a.lo * KI : ℤ) : ℝ) / ((KI : ℝ) * (KI : ℝ)) :=
              div_pos_mono K2 (by exact_mod_cast hll)
          _ = toR a.lo := e3
          _ ≤ x := h1
    · show Real.sqrt x ≤ toR ((sqrtBoundsFast (a.hi * KI).toNat).2 : ℤ)
      have ht : (((a.hi * KI).toNat : ℤ)) = a.hi * KI :=
        Int.toNat_of_nonneg (by nlinarith [show (0 : ℤ) < KI by norm_num [KI]])
      have hu : a.hi * KI < ((sqrtBoundsFast (a.hi * KI).toNat).2 : ℤ) *
          ((sqrtBoundsFast (a.hi * KI).toNat).2 : ℤ) := by
        rw [← ht]
        exact_mod_cast sqrtBoundsFast_upper _
      have hupos : 0 < ((sqrtBoundsFast (a.hi * KI).toNat).2 : ℤ) := by
        rcases Nat.eq_zero_or_pos (sqrtBoundsFast (a.hi * KI).toNat).2 with h0 | hpos
        · rw [h0] at hu
          simp only [Int.natCast_zero, mul_zero] at hu
          nlinarith [show (0 : ℤ) < KI by norm_num [KI]]
        · exact_mod_cast hpos
      have hturpos : 0 < toR ((sqrtBoundsFast (a.hi * KI).toNat).2 : ℤ) := toR_pos hupos
      have step1 : Real.sqrt x ≤ Real.sqrt (toR a.hi) := Real.sqrt_le_sqrt h2
      have step2 : Real.sqrt (toR a.hi) < toR ((sqrtBoundsFast (a.hi * KI).toNat).2 : ℤ) := by
        rw [Real.sqrt_lt' hturpos, toR_sq]
        have hK0 : (KI : ℝ) ≠ 0 := KR_pos.ne'
        have e3 : ((a.hi * KI : ℤ) : ℝ) / ((KI : ℝ) * (KI : ℝ)) = toR a.hi := by
          rw [toR]
          push_cast
          field_simp
          ring
        rw [← e3]
        exact (div_lt_div_iff_of_pos_right K2).mpr (by exact_mod_cast hu)
      exact le_of_lt (lt_of_le_of_lt step1 step2)

/-! The interval executor mirroring the solver's iteration. -/

def zeroItv : Itv := ⟨0, 0⟩

/-- An anchor with exact `KI`-scaled coordinates and an interval enclosing its
measured distance. -/
structure IAnchor where
  ax : ℤ
  ay : ℤ
  az : ℤ
  dist : Itv

/-- A box of intervals enclosing a position. -/
structure IBox where
  x : Itv
  y : Itv
  z : Itv

/-- Interval version of one anchor's gradient contribution; `none` when the
`calculatedDistance > 0` branch cannot be decided from the interval. -/
def anchorContrib (p : IBox) (a : IAnchor) : Option IBox :=
  let dx := subItv p.x ⟨a.ax, a.ax⟩
  let dy := subItv p.y ⟨a.ay, a.ay⟩
  let dz := subItv p.z ⟨a.az, a.az⟩
  let cd := sqrtItv (addItv (addItv (mulItv dx dx) (mulItv dy dy)) (mulItv dz dz))
  if cd.hi ≤ 0 then some ⟨zeroItv, zeroItv, zeroItv⟩
  else if 0 < cd.lo then
    let e := subItv cd a.dist
    some ⟨divItv (doubleItv (mulItv e dx)) cd,
          divItv (doubleItv (mulItv e dy)) cd,
          divItv (doubleItv (mulItv e dz)) cd⟩
  else none

/-- One fold step of the interval gradient accumulation. -/
def igradStep (p : IBox) (acc : Option IBox) (a : IAnchor) : Option IBox :=
  match acc with
  | none => none
  | some g =>
    match anchorContrib p a with
    | none => none
    | some c => some ⟨addItv g.x c.x, addItv g.y c.y, addItv g.z c.z⟩

/-- Interval version of the summed gradient. -/
def igradient (anchors : List IAnchor) (p : IBox) : Option IBox :=
  anchors.foldl (igradStep p) (some ⟨zeroItv, zeroItv, zeroItv⟩)

/-- The squared convergence threshold `0.001²` in `KI`-scaled units. -/
def thrSqScaled : ℤ := 1000000000000

/-- Interval version of one solver iteration: the updated box and whether the
loop breaks; `none` when the threshold comparison cannot be decided. -/
def istep (anchors : List IAnchor) (p : IBox) : Option (IBox × Bool) :=
  match igradient anchors p with
  | none => none
  | some g =>
    let next : IBox :=
      ⟨subItv p.x (tenthItv g.x), subItv p.y (tenthItv g.y), subItv p.z (tenthItv g.z)⟩
    let sq := addItv (addItv (mulItv g.x g.x) (mulItv g.y g.y)) (mulItv g.z g.z)
    if sq.hi < thrSqScaled then some (next, true)
    else if thrSqScaled ≤ sq.lo then some (next, false)
    else none

/-- Interval version of the descent loop, returning the final box and the
number of executed iterations. -/
def irun (anchors : List IAnchor) : ℕ → IBox → Option (IBox × ℕ)
  | 0, p => some (p, 0)
  | f + 1, p =>
    match istep anchors p with
    | none => none
    | some (next, true) => some (next, 1)
    | some (next, false) =>
      match irun anchors f next with
      | none => none
      | some (q, c) => some (q, c + 1)

/-! The concrete scenario of the spec: anchors at `(0,0,0)`, `(4,0,0)`,
`(0,4,0)`, target at `(2,1,0)`, exact measured distances `√5`, `√5`, `√13`. -/

def KN : ℕ := 1000000000000000000

/-- Interval enclosure of `√n` for a natural `n`. -/
def natSqrtItv (n : ℕ) : Itv :=
  ⟨((sqrtBounds (n * KN * KN)).1 : ℤ), ((sqrtBounds (n * KN * KN)).2 : ℤ)⟩

def ic9anchors : List IAnchor :=
  [⟨0, 0, 0, natSqrtItv 5⟩,
   ⟨4 * KI, 0, 0, natSqrtItv 5⟩,
   ⟨0, 4 * KI, 0, natSqrtItv 13⟩]

/-- Error check: the box lies within `0.01` (Euclidean) of `(2,1,0)`; the
constant is `(KI^2) / 10^4`. -/
def errCheck (fb : IBox) : Bool :=
  let ex := max ((fb.x.lo - 2 * KI).natAbs) ((fb.x.hi - 2 * KI).natAbs)
  let ey := max ((fb.y.lo - KI).natAbs) ((fb.y.hi - KI).natAbs)
  let ez := max (fb.z.lo.natAbs) (fb.z.hi.natAbs)
  decide (ex * ex + ey * ey + ez * ez ≤ 100000000000000000000000000000000)

/-- The whole certified computation: run the interval solver for the scenario
and check early break and the final error bound. -/
def c9check : Bool :=
  match irun ic9anchors 100 ⟨⟨0, 0⟩, ⟨0, 0⟩, ⟨0, 0⟩⟩ with
  | none => false
  | some (fb, cnt) => decide (cnt < 100) && errCheck fb

set_option maxRecDepth 20000 in
theorem c9check_true : c9check = true := by decide

/-! Correspondence between the interval executor and the real solver. -/

/-- A real position lies in a box of intervals. -/
def memBox (p : Position) (b : IBox) : Prop :=
  memItv p.X b.x ∧ memItv p.Y b.y ∧ memItv p.Z b.z

/-- A real anchor node is represented by an interval anchor: exact scaled
coordinates and an enclosed measured distance. -/
def anchorRel (node : Node) (a : IAnchor) : Prop :=
  node.Pos.X = toR a.ax ∧ node.Pos.Y = toR a.ay ∧ node.Pos.Z = toR a.az ∧
    memItv node.Distance a.dist

theorem memItv_exact {x : ℝ} {v : ℤ} (h : x = toR v) : memItv x ⟨v, v⟩ :=
  ⟨le_of_eq h.symm, le_of_eq h⟩

theorem memItv_zero : memItv 0 zeroItv :=
  ⟨le_of_eq toR_zero, le_of_eq toR_zero.symm⟩

open Classical in
/-- One anchor's real gradient contribution (zero when skipped). -/
noncomputable def realContrib (p : Position) (node : Node) : Position :=
  let dx := p.X - node.Pos.X
  let dy := p.Y - node.Pos.Y
  let dz := p.Z - node.Pos.Z
  let calculatedDistance := Real.sqrt (dx * dx + dy * dy + dz * dz)
  let error := calculatedDistance - node.Distance
  if calculatedDistance > 0 then
    ⟨2 * error * dx / calculatedDistance,
     2 * error * dy / calculatedDistance,
     2 * error * dz / calculatedDistance⟩
  else ⟨0, 0, 0⟩

/-- The source gradient is the fold of per-anchor contributions. -/
theorem gradientAt_as_contribs (nodes : List Node) (p : Position) :
    gradientAt nodes p =
      nodes.foldl (fun acc node => specAdd acc (realContrib p node)) ⟨0, 0, 0⟩ := by
  unfold gradientAt
  apply List.foldl_ext
  intro acc node _
  simp only [realContrib, specAdd]
  by_cases h : Real.sqrt ((p.X - node.Pos.X) * (p.X - node.Pos.X) +
      (p.Y - node.Pos.Y) * (p.Y - node.Pos.Y) +
      (p.Z - node.Pos.Z) * (p.Z - node.Pos.Z)) > 0
  · rw [if_pos h, if_pos h]
  · rw [if_neg h, if_neg h]
    show acc = ⟨acc.X + 0, acc.Y + 0, acc.Z + 0⟩
    simp only [add_zero]

/-- Soundness of one anchor's interval contribution. -/
theorem anchorContrib_sound {node : Node} {a : IAnchor} {p : Position} {b : IBox}
    (hrel : anchorRel node a) (hp : memBox p b) :
    ∀ c, anchorContrib b a = some c → memBox (realContrib p node) c := by
  obtain ⟨hax, hay, haz, had⟩ := hrel
  obtain ⟨hpx, hpy, hpz⟩ := hp
  intro c hc
  have hdx := memItv_sub hpx (memItv_exact hax)
  have hdy := memItv_sub hpy (memItv_exact hay)
  have hdz := memItv_sub hpz (memItv_exact haz)
  have hs := memItv_add (memItv_add (memItv_mul hdx hdx) (memItv_mul hdy hdy))
    (memItv_mul hdz hdz)
  have hcd := memItv_sqrt hs
  unfold anchorContrib at hc
  dsimp only at hc
  unfold realContrib
  dsimp only
  split at hc
  · next hhi =>
    obtain rfl := Option.some.inj hc
    have hle : Real.sqrt ((p.X - node.Pos.X) * (p.X - node.Pos.X) +
        (p.Y - node.Pos.Y) * (p.Y - node.Pos.Y) +
        (p.Z - node.Pos.Z) * (p.Z - node.Pos.Z)) ≤ 0 := by
      refine le_trans hcd.2 ?_
      have := toR_mono hhi
      rwa [toR_zero] at this
    rw [if_neg (not_lt.mpr hle)]
    exact ⟨memItv_zero, memItv_zero, memItv_zero⟩
  · split at hc
    · next hlo =>
      obtain rfl := Option.some.inj hc
      have hcdpos : (0 : ℝ) < Real.sqrt ((p.X - node.Pos.X) * (p.X - node.Pos.X) +
          (p.Y - node.Pos.Y) * (p.Y - node.Pos.Y) +
          (p.Z - node.Pos.Z) * (p.Z - node.Pos.Z)) :=
        lt_of_lt_of_le (toR_pos hlo) hcd.1
      rw [if_pos hcdpos]
      have he := memItv_sub hcd had
      refine ⟨?_, ?_, ?_⟩
      · have h1 := memItv_div (memItv_double (memItv_mul he hdx)) hcd hlo
        convert h1 using 2
        ring
      · have h1 := memItv_div (memItv_double (memItv_mul he hdy)) hcd hlo
        convert h1 using 2
        ring
      · have h1 := memItv_div (memItv_double (memItv_mul he hdz)) hcd hlo
        convert h1 using 2
        ring
    · exact absurd hc (by simp)

theorem foldl_igradStep_none (b : IBox) (anchors : List IAnchor) :
    anchors.foldl (igradStep b) none = none := by
  induction anchors with
  | nil => rfl
  | cons a rest ih =>
    rw [List.foldl_cons]
    exact ih

theorem igradStep_none_eq (b : IBox) (a : IAnchor) : igradStep b none a = none := rfl

theorem igradStep_some_none {b : IBox} {a : IAnchor} (g : IBox)
    (h : anchorContrib b a = none) : igradStep b (some g) a = none := by
  unfold igradStep
  rw [h]

theorem igradStep_some_some {b : IBox} {a : IAnchor} (g c : IBox)
    (h : anchorContrib b a = some c) :
    igradStep b (some g) a = some ⟨addItv g.x c.x, addItv g.y c.y, addItv g.z c.z⟩ := by
  unfold igradStep
  rw [h]

set_option maxHeartbeats 1000000 in
/-- Soundness of the interval gradient fold, generalized over the
accumulator. -/
theorem igrad_fold_sound {p : Position} {b : IBox} (hp : memBox p b) :
    ∀ {nodes : List Node} {anchors : List IAnchor}, List.Forall₂ anchorRel nodes anchors →
      ∀ {accR : Position} {accI : IBox}, memBox accR accI →
        ∀ g, anchors.foldl (igradStep b) (some accI) = some g →
          memBox (nodes.foldl (fun acc node => specAdd acc (realContrib p node)) accR) g := by
  intro nodes anchors hrel
  induction hrel with
  | nil =>
    intro accR accI hacc g hg
    rw [List.foldl_nil] at hg
    obtain rfl := Option.some.inj hg
    exact hacc
  | @cons node a nodes2 anchors2 hxy htail ih =>
    intro accR accI hacc g hg
    rw [List.foldl_cons] at hg
    rw [List.foldl_cons]
    cases hca : anchorContrib b a with
    | none =>
      rw [igradStep_some_none accI hca, foldl_igradStep_none] at hg
      exact absurd hg (by simp)
    | some c =>
      have hcmem := anchorContrib_sound hxy hp c hca
      rw [igradStep_some_some accI c hca] at hg
      exact ih ⟨memItv_add hacc.1 hcmem.1,
        memItv_add hacc.2.1 hcmem.2.1, memItv_add hacc.2.2 hcmem.2.2⟩ g hg

/-- Soundness of the interval gradient. -/
theorem igradient_sound {nodes : List Node} {anchors : List IAnchor}
    (hrel : List.Forall₂ anchorRel nodes anchors) {p : Position} {b : IBox}
    (hp : memBox p b) :
    ∀ g, igradient anchors b = some g → memBox (gradientAt nodes p) g := by
  intro g hg
  rw [gradientAt_as_contribs]
  exact igrad_fold_sound hp hrel ⟨memItv_zero, memItv_zero, memItv_zero⟩ g hg

/-- The solver's position update, named. -/
noncomputable def stepPos (nodes : List Node) (p : Position) : Position :=
  ⟨p.X - learningRate * (gradientAt nodes p).X,
   p.Y - learningRate * (gradientAt nodes p).Y,
   p.Z - learningRate * (gradientAt nodes p).Z⟩

/-- The solver's gradient magnitude, named. -/
noncomputable def gradMag (nodes : List Node) (p : Position) : ℝ :=
  Real.sqrt ((gradientAt nodes p).X * (gradientAt nodes p).X +
    (gradientAt nodes p).Y * (gradientAt nodes p).Y +
    (gradientAt nodes p).Z * (gradientAt nodes p).Z)

theorem trilatLoop_succ (nodes : List Node) (fuel : ℕ) (p : Position) :
    trilatLoop nodes (fuel + 1) p =
      if gradMag nodes p < convergenceThreshold then (stepPos nodes p, 1)
      else ((trilatLoop nodes fuel (stepPos nodes p)).1,
        (trilatLoop nodes fuel (stepPos nodes p)).2 + 1) := rfl

theorem learningRate_mul (t : ℝ) : learningRate * t = t / 10 := by
  rw [learningRate]
  ring_nf

theorem toR_thrSqScaled : toR thrSqScaled = convergenceThreshold ^ 2 := by
  norm_num [toR, thrSqScaled, KI, convergenceThreshold]

theorem gradMag_lt_iff (nodes : List Node) (p : Position) :
    gradMag nodes p < convergenceThreshold ↔
      (gradientAt nodes p).X * (gradientAt nodes p).X +
        (gradientAt nodes p).Y * (gradientAt nodes p).Y +
        (gradientAt nodes p).Z * (gradientAt nodes p).Z < convergenceThreshold ^ 2 := by
  unfold gradMag
  exact Real.sqrt_lt' (by norm_num [convergenceThreshold])

/-- Soundness of one interval iteration against one real iteration. -/
theorem istep_sound {nodes : List Node} {anchors : List IAnchor}
    (hrel : List.Forall₂ anchorRel nodes anchors) {p : Position} {b : IBox}
    (hp : memBox p b) :
    ∀ nb brk, istep anchors b = some (nb, brk) →
      memBox (stepPos nodes p) nb ∧
      (brk = true → gradMag nodes p < convergenceThreshold) ∧
      (brk = false → ¬ gradMag nodes p < convergenceThreshold) := by
  intro nb brk hstep
  unfold istep at hstep
  cases hg : igradient anchors b with
  | none =>
    rw [hg] at hstep
    exact absurd hstep (by simp)
  | some g =>
    rw [hg] at hstep
    dsimp only at hstep
    obtain ⟨hgx, hgy, hgz⟩ := igradient_sound hrel hp g hg
    have hnx : memItv (stepPos nodes p).X (subItv b.x (tenthItv g.x)) := by
      show memItv (p.X - learningRate * (gradientAt nodes p).X) _
      rw [learningRate_mul]
      exact memItv_sub hp.1 (memItv_tenth hgx)
    have hny : memItv (stepPos nodes p).Y (subItv b.y (tenthItv g.y)) := by
      show memItv (p.Y - learningRate * (gradientAt nodes p).Y) _
      rw [learningRate_mul]
      exact memItv_sub hp.2.1 (memItv_tenth hgy)
    have hnz : memItv (stepPos nodes p).Z (subItv b.z (tenthItv g.z)) := by
      show memItv (p.Z - learningRate * (gradientAt nodes p).Z) _
      rw [learningRate_mul]
      exact memItv_sub hp.2.2 (memItv_tenth hgz)
    have hsq : memItv ((gradientAt nodes p).X * (gradientAt nodes p).X +
        (gradientAt nodes p).Y * (gradientAt nodes p).Y +
        (gradientAt nodes p).Z * (gradientAt nodes p).Z)
        (addItv (addItv (mulItv g.x g.x) (mulItv g.y g.y)) (mulItv g.z g.z)) :=
      memItv_add (memItv_add (memItv_mul hgx hgx) (memItv_mul hgy hgy))
        (memItv_mul hgz hgz)
    split at hstep
    · next hhi =>
      simp only [Option.some.injEq, Prod.mk.injEq] at hstep
      obtain ⟨rfl, rfl⟩ := hstep
      have hlt := toR_lt_toR hhi
      rw [toR_thrSqScaled] at hlt
      exact ⟨⟨hnx, hny, hnz⟩,
        fun _ => (gradMag_lt_iff nodes p).mpr (lt_of_le_of_lt hsq.2 hlt),
        fun hf => absurd hf (by simp)⟩
    · split at hstep
      · next hge =>
        simp only [Option.some.injEq, Prod.mk.injEq] at hstep
        obtain ⟨rfl, rfl⟩ := hstep
        have hle := toR_mono hge
        rw [toR_thrSqScaled] at hle
        refine ⟨⟨hnx, hny, hnz⟩, fun ht => absurd ht (by simp), fun _ => fun hcon => ?_⟩
        exact absurd ((gradMag_lt_iff nodes p).mp hcon)
          (not_lt.mpr (le_trans hle hsq.1))
      · exact absurd hstep (by simp)

/-- Soundness of the interval run: on success the real loop's result lies in
the final box and executes exactly the counted number of iterations. -/
theorem irun_sound {nodes : List Node} {anchors : List IAnchor}
    (hrel : List.Forall₂ anchorRel nodes anchors) :
    ∀ (fuel : ℕ) (p : Position) (b : IBox), memBox p b →
      ∀ out, irun anchors fuel b = some out →
        memBox (trilatLoop nodes fuel p).1 out.1 ∧ (trilatLoop nodes fuel p).2 = out.2 := by
  intro fuel
  induction fuel with
  | zero =>
    intro p b hp out hout
    rw [irun] at hout
    obtain rfl := Option.some.inj hout
    exact ⟨hp, rfl⟩
  | succ f ih =>
    intro p b hp out hout
    rw [irun] at hout
    cases hstep : istep anchors b with
    | none =>
      rw [hstep] at hout
      exact absurd hout (by simp)
    | some pr =>
      obtain ⟨next, brk⟩ := pr
      obtain ⟨hmem, htrue, hfalse⟩ := istep_sound hrel hp next brk hstep
      cases brk with
      | true =>
        rw [hstep] at hout
        obtain rfl := Option.some.inj hout
        rw [trilatLoop_succ, if_pos (htrue rfl)]
        exact ⟨hmem, rfl⟩
      | false =>
        rw [hstep] at hout
        dsimp only at hout
        cases hrun : irun anchors f next with
        | none =>
          rw [hrun] at hout
          exact absurd hout (by simp)
        | some qc =>
          obtain ⟨q, c⟩ := qc
          rw [hrun] at hout
          obtain rfl := Option.some.inj hout
          have hrec := ih (stepPos nodes p) next hmem (q, c) hrun
          rw [trilatLoop_succ, if_neg (hfalse rfl)]
          exact ⟨hrec.1, by rw [hrec.2]⟩

/-! The concrete scenario, related to its interval data. -/

theorem natSqrtItv_sound (n : ℕ) : memItv (Real.sqrt n) (natSqrtItv n) := by
  have K2 : (0 : ℝ) < (KI : ℝ) * (KI : ℝ) := mul_pos KR_pos KR_pos
  have hKNR : ((KN : ℕ) : ℝ) = ((KI : ℤ) : ℝ) := by norm_num [KN, KI]
  constructor
  · show toR ((sqrtBounds (n * KN * KN)).1 : ℤ) ≤ Real.sqrt n
    apply Real.le_sqrt_of_sq_le
    rw [toR_sq, div_le_iff₀ K2]
    have hl : (sqrtBounds (n * KN * KN)).1 * (sqrtBounds (n * KN * KN)).1 ≤
        n * (KN * KN) := by
      rw [← mul_assoc]
      exact sqrtBounds_lower (n * KN * KN)
    have hlR : ((sqrtBounds (n * KN * KN)).1 : ℝ) * ((sqrtBounds (n * KN * KN)).1 : ℝ) ≤
        (n : ℝ) * ((KN : ℝ) * (KN : ℝ)) := by exact_mod_cast hl
    rw [hKNR] at hlR
    push_cast
    exact hlR
  · show Real.sqrt n ≤ toR ((sqrtBounds (n * KN * KN)).2 : ℤ)
    have hu : n * (KN * KN) < (sqrtBounds (n * KN * KN)).2 * (sqrtBounds (n * KN * KN)).2 := by
      rw [← mul_assoc]
      exact sqrtBounds_upper (n * KN * KN)
    have hun : 0 < (sqrtBounds (n * KN * KN)).2 := by
      rcases Nat.eq_zero_or_pos (sqrtBounds (n * KN * KN)).2 with h0 | hpos
      · rw [h0] at hu
        exact absurd hu (by simp)
      · exact hpos
    apply le_of_lt
    rw [Real.sqrt_lt' (toR_pos (by exact_mod_cast hun)), toR_sq, lt_div_iff₀ K2]
    have huR : (n : ℝ) * ((KN : ℝ) * (KN : ℝ)) <
        ((sqrtBounds (n * KN * KN)).2 : ℝ) * ((sqrtBounds (n * KN * KN)).2 : ℝ) := by
      exact_mod_cast hu
    rw [hKNR] at huR
    push_cast
    exact huR

/-- The spec's true target position `(2, 1, 0)`. -/
noncomputable def c9truePos : Position := ⟨2, 1, 0⟩

/-- Euclidean distance between two positions, with the solver's
`dx*dx + dy*dy + dz*dz` shape. -/
noncomputable def distanceBetween (p q : Position) : ℝ :=
  Real.sqrt ((p.X - q.X) * (p.X - q.X) + (p.Y - q.Y) * (p.Y - q.Y) +
    (p.Z - q.Z) * (p.Z - q.Z))

/-- The three anchors of the spec's example scenario, with measured distances
computed exactly from the true position. -/
noncomputable def c9nodes : List Node :=
  [⟨"a1", some 1, ⟨0, 0, 0⟩, distanceBetween c9truePos ⟨0, 0, 0⟩, 0, 0⟩,
   ⟨"a2", some 2, ⟨4, 0, 0⟩, distanceBetween c9truePos ⟨4, 0, 0⟩, 0, 0⟩,
   ⟨"a3", some 3, ⟨0, 4, 0⟩, distanceBetween c9truePos ⟨0, 4, 0⟩, 0, 0⟩]

theorem c9rel : List.Forall₂ anchorRel c9nodes ic9anchors := by
  have h0 : (0 : ℝ) = toR 0 := toR_zero.symm
  have h4 : (4 : ℝ) = toR (4 * KI) := by norm_num [toR, KI]
  have hd1 : distanceBetween c9truePos ⟨0, 0, 0⟩ = Real.sqrt (5 : ℕ) := by
    unfold distanceBetween c9truePos
    norm_num
  have hd2 : distanceBetween c9truePos ⟨4, 0, 0⟩ = Real.sqrt (5 : ℕ) := by
    unfold distanceBetween c9truePos
    norm_num
  have hd3 : distanceBetween c9truePos ⟨0, 4, 0⟩ = Real.sqrt (13 : ℕ) := by
    unfold distanceBetween c9truePos
    norm_num
  unfold c9nodes ic9anchors
  refine List.Forall₂.cons ⟨h0, h0, h0, ?_⟩
    (List.Forall₂.cons ⟨h4, h0, h0, ?_⟩
      (List.Forall₂.cons ⟨h0, h4, h0, ?_⟩ List.Forall₂.nil))
  · rw [show (⟨"a1", some 1, ⟨0, 0, 0⟩, distanceBetween c9truePos ⟨0, 0, 0⟩, 0, 0⟩ :
        Node).Distance = distanceBetween c9truePos ⟨0, 0, 0⟩ from rfl, hd1]
    exact natSqrtItv_sound 5
  · rw [show (⟨"a2", some 2, ⟨4, 0, 0⟩, distanceBetween c9truePos ⟨4, 0, 0⟩, 0, 0⟩ :
        Node).Distance = distanceBetween c9truePos ⟨4, 0, 0⟩ from rfl, hd2]
    exact natSqrtItv_sound 5
  · rw [show (⟨"a3", some 3, ⟨0, 4, 0⟩, distanceBetween c9truePos ⟨0, 4, 0⟩, 0, 0⟩ :
        Node).Distance = distanceBetween c9truePos ⟨0, 4, 0⟩ from rfl, hd3]
    exact natSqrtItv_sound 13

/-- Squared deviation of an enclosed value from a scaled reference point. -/
theorem err_bound {v : ℝ} {lo hi : ℤ} (h1 : toR lo ≤ v) (h2 : v ≤ toR hi) (t : ℤ) :
    (v - toR t) ^ 2 ≤ toR ((max (lo - t).natAbs (hi - t).natAbs : ℕ) : ℤ) ^ 2 := by
  have hM1 : hi - t ≤ ((max (lo - t).natAbs (hi - t).natAbs : ℕ) : ℤ) := by
    refine le_trans Int.le_natAbs ?_
    exact_mod_cast Nat.le_max_right (lo - t).natAbs (hi - t).natAbs
  have hM2 : t - lo ≤ ((max (lo - t).natAbs (hi - t).natAbs : ℕ) : ℤ) := by
    have hstep : t - lo ≤ ((lo - t).natAbs : ℤ) := by
      rw [show t - lo = -(lo - t) by ring, ← Int.natAbs_neg]
      exact Int.le_natAbs
    refine le_trans hstep ?_
    exact_mod_cast Nat.le_max_left (lo - t).natAbs (hi - t).natAbs
  have e1 : toR t - toR lo = toR (t - lo) := by
    rw [toR, toR, toR]
    push_cast
    rw [sub_div]
  have e2 : toR hi - toR t = toR (hi - t) := by
    rw [toR, toR, toR]
    push_cast
    rw [sub_div]
  have habs : |v - toR t| ≤ toR ((max (lo - t).natAbs (hi - t).natAbs : ℕ) : ℤ) := by
    rw [abs_le]
    constructor
    · have := toR_mono hM2
      linarith [e1]
    · have := toR_mono hM1
      linarith [e2]
  calc (v - toR t) ^ 2 = |v - toR t| ^ 2 := (sq_abs _).symm
    _ ≤ toR ((max (lo - t).natAbs (hi - t).natAbs : ℕ) : ℤ) ^ 2 :=
        pow_le_pow_left₀ (abs_nonneg _) habs 2

/-- The boolean error check certifies the real Euclidean error bound. -/
theorem errCheck_sound {q : Position} {fb : IBox} (hq : memBox q fb)
    (hck : errCheck fb = true) : distanceBetween q c9truePos ≤ 1 / 100 := by
  obtain ⟨hx, hy, hz⟩ := hq
  have K2 : (0 : ℝ) < (KI : ℝ) * (KI : ℝ) := mul_pos KR_pos KR_pos
  have hint : (max ((fb.x.lo - 2 * KI).natAbs) ((fb.x.hi - 2 * KI).natAbs)) *
      (max ((fb.x.lo - 2 * KI).natAbs) ((fb.x.hi - 2 * KI).natAbs)) +
      (max ((fb.y.lo - KI).natAbs) ((fb.y.hi - KI).natAbs)) *
      (max ((fb.y.lo - KI).natAbs) ((fb.y.hi - KI).natAbs)) +
      (max (fb.z.lo.natAbs) (fb.z.hi.natAbs)) * (max (fb.z.lo.natAbs) (fb.z.hi.natAbs)) ≤
      100000000000000000000000000000000 := by
    unfold errCheck at hck
    exact of_decide_eq_true hck
  have hbx : (q.X - toR (2 * KI)) ^ 2 ≤
      toR ((max ((fb.x.lo - 2 * KI).natAbs) ((fb.x.hi - 2 * KI).natAbs) : ℕ) : ℤ) ^ 2 :=
    err_bound hx.1 hx.2 (2 * KI)
  have hby : (q.Y - toR KI) ^ 2 ≤
      toR ((max ((fb.y.lo - KI).natAbs) ((fb.y.hi - KI).natAbs) : ℕ) : ℤ) ^ 2 := by
    have := err_bound hy.1 hy.2 KI
    simpa using this
  have hbz : (q.Z - toR 0) ^ 2 ≤
      toR ((max (fb.z.lo.natAbs) (fb.z.hi.natAbs) : ℕ) : ℤ) ^ 2 := by
    have := err_bound hz.1 hz.2 0
    simpa using this
  have h2K : toR (2 * KI) = 2 := by norm_num [toR, KI]
  have h1K : toR KI = 1 := by norm_num [toR, KI]
  rw [h2K] at hbx
  rw [h1K] at hby
  rw [toR_zero] at hbz
  -- sum of squared interval radii is bounded by the checked integer
  have hsum : toR ((max ((fb.x.lo - 2 * KI).natAbs) ((fb.x.hi - 2 * KI).natAbs) : ℕ) : ℤ) ^ 2 +
      toR ((max ((fb.y.lo - KI).natAbs) ((fb.y.hi - KI).natAbs) : ℕ) : ℤ) ^ 2 +
      toR ((max (fb.z.lo.natAbs) (fb.z.hi.natAbs) : ℕ) : ℤ) ^ 2 ≤ 1 / 10000 := by
    rw [toR_sq, toR_sq, toR_sq, div_add_div_same, div_add_div_same, div_le_iff₀ K2]
    have hcast : ((((max ((fb.x.lo - 2 * KI).natAbs) ((fb.x.hi - 2 * KI).natAbs) : ℕ) : ℤ) *
        ((max ((fb.x.lo - 2 * KI).natAbs) ((fb.x.hi - 2 * KI).natAbs) : ℕ) : ℤ) +
        ((max ((fb.y.lo - KI).natAbs) ((fb.y.hi - KI).natAbs) : ℕ) : ℤ) *
        ((max ((fb.y.lo - KI).natAbs) ((fb.y.hi - KI).natAbs) : ℕ) : ℤ) +
        ((max (fb.z.lo.natAbs) (fb.z.hi.natAbs) : ℕ) : ℤ) *
        ((max (fb.z.lo.natAbs) (fb.z.hi.natAbs) : ℕ) : ℤ) : ℤ) : ℝ) ≤
        (100000000000000000000000000000000 : ℝ) := by
      exact_mod_cast hint
    push_cast at hcast ⊢
    nlinarith [hcast, show ((KI : ℝ) * (KI : ℝ)) = 1000000000000000000000000000000000000 by
      norm_num [KI]]
  have hq2 : (q.X - 2) ^ 2 + (q.Y - 1) ^ 2 + (q.Z - 0) ^ 2 ≤ 1 / 10000 := by
    nlinarith [hbx, hby, hbz, hsum]
  have hdist : distanceBetween q c9truePos =
      Real.sqrt ((q.X - 2) ^ 2 + (q.Y - 1) ^ 2 + (q.Z - 0) ^ 2) := by
    unfold distanceBetween c9truePos
    congr 1
    ring
  rw [hdist]
  calc Real.sqrt ((q.X - 2) ^ 2 + (q.Y - 1) ^ 2 + (q.Z - 0) ^ 2) ≤
      Real.sqrt (1 / 10000) := Real.sqrt_le_sqrt hq2
    _ = 1 / 100 := by
      rw [show (1 : ℝ) / 10000 = (1 / 100) ^ 2 by norm_num,
        Real.sqrt_sq (by norm_num : (0 : ℝ) ≤ 1 / 100)]

set_option maxRecDepth 20000 in
/-- C9: with anchors at `(0,0,0)`, `(4,0,0)`, `(0,4,0)` and measured distances
computed exactly from the true target `(2,1,0)`, the solver starting from the
origin breaks out of its loop in fewer than 100 iterations and returns a
position within `0.01` units of the true target. -/
theorem claim9_convergence :
    (trilatLoop c9nodes 100 ⟨0, 0, 0⟩).2 < 100 ∧
    distanceBetween (trilateratePosition c9nodes ⟨0, 0, 0⟩) c9truePos ≤ 1 / 100 := by
  have hinit : memBox ⟨0, 0, 0⟩ ⟨⟨0, 0⟩, ⟨0, 0⟩, ⟨0, 0⟩⟩ :=
    ⟨memItv_zero, memItv_zero, memItv_zero⟩
  have hck := c9check_true
  unfold c9check at hck
  cases hrun : irun ic9anchors 100 ⟨⟨0, 0⟩, ⟨0, 0⟩, ⟨0, 0⟩⟩ with
  | none =>
    rw [hrun] at hck
    exact absurd hck (by simp)
  | some out =>
    obtain ⟨fb, cnt⟩ := out
    rw [hrun] at hck
    dsimp only at hck
    rw [Bool.and_eq_true] at hck
    obtain ⟨hcnt, herr⟩ := hck
    have hcnt2 : cnt < 100 := of_decide_eq_true hcnt
    obtain ⟨hmem, heq⟩ := irun_sound c9rel 100 ⟨0, 0, 0⟩ _ hinit (fb, cnt) hrun
    constructor
    · rw [heq]
      exact hcnt2
    · exact errCheck_sound hmem herr

end Esp
